import Mathlib

/-
Shallow embedding of the Ternary Mesh Tree implementation (src/src/index.ts)
for checking the natural-language specification against the code.

Modelling conventions:
* Byte arrays (`Uint8Array`) are `List Nat`.
* The BLAKE3 digest is modelled symbolically by the free type `HashV`:
  `computeHash data` is the generator `leaf data`, and `combineHashes hs`
  (BLAKE3 of the 32-byte-aligned, order-sensitive concatenation of the
  child digests) is the free right-nested pairing of the children
  (`foldr consH nilH`), which is injective and disjoint from `leaf` —
  exactly the determinism and collision resistance the spec grants the
  primitive as a black box.  Byte-wise digest comparison (`hashesEqual`)
  becomes decidable structural equality of `HashV` values.
* JavaScript `Map`s and `Set`s are association lists / lists in insertion
  order (JS `Map`/`Set` iterate in insertion order).  The source's cache
  key `Array.from(data).join(',')` — an injective encoding of a byte
  list — is modelled by keying on the byte list itself.
* Methods that mutate `this` are functions `Tree → args → Tree × Option TMTErr`
  returning the state at normal completion or at the point an exception
  was thrown.  Methods returning `[boolean, Error | null]` become
  `Bool × Option TMTErr`.  An uncaught JavaScript `TypeError` escaping
  `verifyProof` (an access to a property of an `undefined` array element,
  or `combineHashes` applied to an array with holes) is modelled by
  `Option`, `none` standing for the crash.
* Unbounded `while` loops that climb parent pointers are modelled with
  explicit fuel; the fuel chosen is proved sufficient on the states the
  source reaches (parent ids strictly increase along a chain and are
  bounded by the node-array length).
* Timing metrics are real-time observations and are not modelled; no
  `Metrics` field affects any other observable behaviour in the source.
-/

set_option linter.unusedVariables false

namespace TMT

/-- Symbolic digests: the free algebra generated by leaf hashing
(`computeHash`) and order-sensitive combination (`combineHashes`, encoded
as free right-nested pairing so the type is non-nested and equality is
derivable). -/
inductive HashV : Type where
  | leaf : List Nat → HashV
  | nilH : HashV
  | consH : HashV → HashV → HashV
deriving DecidableEq

instance : Inhabited HashV := ⟨HashV.leaf []⟩

/-- Source `computeHash(data)`: BLAKE3 digest of the data. -/
def computeHash (data : List Nat) : HashV := HashV.leaf data

/-- Source `combineHashes(hashes)`: digest of the ordered concatenation of
the given digests, modelled as the free pairing of the list. -/
def combineHashes (hashes : List HashV) : HashV :=
  hashes.foldr HashV.consH HashV.nilH

theorem combineHashes_injective {hs₁ hs₂ : List HashV}
    (h : combineHashes hs₁ = combineHashes hs₂) : hs₁ = hs₂ := by
  induction hs₁ generalizing hs₂ with
  | nil => cases hs₂ with
    | nil => rfl
    | cons b bs => simp [combineHashes] at h
  | cons a as ih => cases hs₂ with
    | nil => simp [combineHashes] at h
    | cons b bs =>
        simp only [combineHashes, List.foldr_cons, HashV.consH.injEq] at h
        exact by rw [h.1, ih h.2]

theorem combineHashes_ne_computeHash (hs : List HashV) (d : List Nat) :
    combineHashes hs ≠ computeHash d := by
  cases hs <;> simp [combineHashes, computeHash]

/-- Source `InternalNode`: hash, ordered children ids, leaf flag, optional
parent back-reference. -/
structure InternalNode where
  hash : HashV
  children : List Nat
  isLeaf : Bool
  parent : Option Nat
deriving DecidableEq

instance : Inhabited InternalNode := ⟨⟨HashV.leaf [], [], true, none⟩⟩

/-- Source `Config` (the metrics flag only gates timing observations,
which are not modelled; `parallelThreshold` selects a result-identical
code path, see `buildRound`). -/
structure Config where
  enableCaching : Bool
  maxCacheSize : Nat
  enableMetrics : Bool
  parallelThreshold : Nat
deriving DecidableEq

/-- Source `defaultConfig()`. -/
def defaultConfig : Config := ⟨true, 10000, true, 1000⟩

/-- Error kinds of `ErrorMessages`, plus `typeError` for a raw JavaScript
`TypeError` raised by an access to a property of an `undefined` array
element (the source throws these implicitly; they are not `TMTError`s). -/
inductive TMTErr where
  | emptyData : TMTErr
  | invalidIndex : Nat → TMTErr
  | uninitialized : TMTErr
  | serialization : TMTErr
  | invalidProof : TMTErr
  | missingParent : TMTErr
  | typeError : TMTErr
deriving DecidableEq

/-- Source `SiblingHash`: a claimed child position paired with a digest.
The position is a `Nat`; the source's `sh.pos < 0` rejection branch is
vacuous for the representable inputs. -/
structure SiblingHash where
  pos : Nat
  hash : HashV
deriving DecidableEq

/-- Source `VerificationProof`. -/
structure VerificationProof where
  leafIndex : Nat
  siblingHashes : List SiblingHash
  pathLength : Nat
deriving DecidableEq

/-- The mutable fields of a `TernaryMeshTree` instance. -/
structure Tree where
  nodes : List InternalNode
  leafData : List (List Nat)
  rootID : Option Nat
  leafCount : Nat
  cfg : Config
  hashCache : List (List Nat × HashV)
deriving DecidableEq

/-- Source constructor `new TernaryMeshTree(cfg)`. -/
def mkTree (cfg : Config) : Tree :=
  { nodes := [], leafData := [], rootID := none, leafCount := 0,
    cfg := cfg, hashCache := [] }

/-- Reading `this.nodes[id].hash`; out-of-range reads never happen on the
states the source reaches (a `default` keeps the function total). -/
def childHash (nodes : List InternalNode) (id : Nat) : HashV :=
  ((nodes[id]?).getD default).hash

/-- Replace node `i` by `f` applied to it (an in-place field assignment in
the source); out of range it is the identity. -/
def modifyNode (nodes : List InternalNode) (i : Nat) (f : InternalNode → InternalNode) :
    List InternalNode :=
  match nodes[i]? with
  | some n => nodes.set i (f n)
  | none => nodes

-- ---------------------- Cache ----------------------

/-- Association-list lookup for the hash cache (JS `Map.has`/`Map.get`). -/
def cacheLookup (cache : List (List Nat × HashV)) (key : List Nat) : Option HashV :=
  match cache.find? (fun kv => kv.1 = key) with
  | some kv => some kv.2
  | none => none

/-- Source `getCachedHash(data)`: consult the cache when enabled; insert a
freshly computed digest only while the cache is below `maxCacheSize`
(first-come-first-served, no eviction). -/
def getCachedHash (cfg : Config) (cache : List (List Nat × HashV)) (data : List Nat) :
    HashV × List (List Nat × HashV) :=
  if !cfg.enableCaching then (computeHash data, cache)
  else
    match cacheLookup cache data with
    | some h => (h, cache)
    | none =>
        let h := computeHash data
        if cache.length < cfg.maxCacheSize then (h, cache ++ [(data, h)])
        else (h, cache)

-- ---------------------- Build ----------------------

/-- Leaf-construction loop of `build`: one node and one copied data entry
per block, threading the hash cache. -/
def buildLeaves (cfg : Config) (cache : List (List Nat × HashV)) :
    List (List Nat) → List InternalNode × List (List Nat) × List (List Nat × HashV)
  | [] => ([], [], cache)
  | d :: rest =>
      let r := getCachedHash cfg cache d
      let rec' := buildLeaves cfg r.2 rest
      (⟨r.1, [], true, none⟩ :: rec'.1, d :: rec'.2.1, rec'.2.2)

/-- One iteration of `build`'s padding loop (`while current.length % 3 !== 0`):
append a synthetic empty-content leaf; the pushed node id is the position
at which it is appended.  Fuel 3 (`padLeaves`) is enough: at most two
iterations ever run. -/
def padLoop : Nat → List InternalNode × List (List Nat) × List Nat →
    List InternalNode × List (List Nat) × List Nat
  | 0, st => st
  | fuel + 1, (nodes, leafData, current) =>
      if current.length % 3 = 0 then (nodes, leafData, current)
      else
        padLoop fuel
          (nodes ++ [⟨computeHash [], [], true, none⟩], leafData ++ [[]],
           current ++ [nodes.length])

def padLeaves (nodes : List InternalNode) (leafData : List (List Nat)) (current : List Nat) :
    List InternalNode × List (List Nat) × List Nat :=
  padLoop 3 (nodes, leafData, current)

/-- Source helper `chunkBy(arr, k)`; the slicing loop runs at most
`arr.length` times (each iteration drops `k ≥ 1` elements), which is the
fuel `chunkBy` supplies. -/
def chunkGo (k : Nat) : Nat → List α → List (List α)
  | _, [] => []
  | 0, _ :: _ => []
  | fuel + 1, a :: rest => (a :: rest).take k :: chunkGo k fuel ((a :: rest).drop k)

def chunkBy (arr : List α) (k : Nat) : List (List α) :=
  if k = 0 then [arr] else chunkGo k arr.length arr

/-- The child-pointer loop of `appendParent`: set every chunk member's
parent back-reference to `pid`. -/
def setParents (nodes : List InternalNode) (chunk : List Nat) (pid : Nat) :
    List InternalNode :=
  chunk.foldl (fun ns cid => modifyNode ns cid (fun n => { n with parent := some pid })) nodes

/-- Source closure `appendParent(chunk, parentHash)`: push the new
internal node and point every child in the chunk at it. -/
def appendParent (nodes : List InternalNode) (chunk : List Nat) (parentHash : HashV) :
    List InternalNode × Nat :=
  let pid := nodes.length
  (setParents (nodes ++ [⟨parentHash, chunk, false, none⟩]) chunk pid, pid)

/-- Body of one group in `build`'s bottom-up loop: read the group's child
hashes from the current node array, append their parent, record its id. -/
def roundStep (acc : List InternalNode × List Nat) (chunk : List Nat) :
    List InternalNode × List Nat :=
  let childHashes := chunk.map (fun id => childHash acc.1 id)
  let r := appendParent acc.1 chunk (combineHashes childHashes)
  (r.1, acc.2 ++ [r.2])

/-- One layer-reduction round of `build`'s bottom-up loop.  The source's
parallel branch (taken when the layer is at least `parallelThreshold`
long) sorts the precomputed group hashes back into group order before
appending, so both branches append the same parents in the same order;
the model is that common result. -/
def buildRound (nodes : List InternalNode) (current : List Nat) :
    List InternalNode × List Nat :=
  (chunkBy current 3).foldl roundStep (nodes, [])

/-- Bottom-up layer loop of `build` (`while current.length > 1`).  Each
round strictly shrinks the layer, so `current.length` rounds of fuel
suffice (`buildLoop_length_le_one`). -/
def buildLoopGo : Nat → List InternalNode × List Nat → List InternalNode × List Nat
  | 0, st => st
  | fuel + 1, (nodes, current) =>
      if 1 < current.length then buildLoopGo fuel (buildRound nodes current)
      else (nodes, current)

def buildLoop (nodes : List InternalNode) (current : List Nat) :
    List InternalNode × List Nat :=
  buildLoopGo current.length (nodes, current)

/-- Source `build(dataBlocks)`: guard against empty input, reset the node
and leaf arrays (but not the hash cache), hash the leaves through the
cache, pad to a multiple of 3, reduce bottom-up, record the root. -/
def build (t : Tree) (dataBlocks : List (List Nat)) : Tree × Option TMTErr :=
  match dataBlocks with
  | [] => (t, some TMTErr.emptyData)
  | _ :: _ =>
      let r := buildLeaves t.cfg t.hashCache dataBlocks
      let p := padLeaves r.1 r.2.1 (List.range dataBlocks.length)
      let b := buildLoop p.1 p.2.2
      ({ nodes := b.1, leafData := p.2.1, rootID := some (b.2.headD 0),
         leafCount := dataBlocks.length, cfg := t.cfg, hashCache := r.2.2 },
       none)

-- ---------------------- Proof generation ----------------------

/-- The position-scan loop shared by `generateProofInternal` and
`verifyProofInternal`: first index `i ≥ start` with `children[i] = cur`
(`pos = -1` when absent becomes `none`). -/
def findPos (cur : Nat) : List Nat → Nat → Option Nat
  | [], _ => none
  | c :: cs, i => if c = cur then some i else findPos cur cs (i + 1)

/-- The sibling-recording loop of `generateProofInternal`: every child
position except `pos`, paired with that child's hash, in ascending
position order. -/
def levelSibs (nodes : List InternalNode) : List Nat → Nat → Nat → List SiblingHash
  | [], _, _ => []
  | c :: cs, i, pos =>
      if i = pos then levelSibs nodes cs (i + 1) pos
      else ⟨i, childHash nodes c⟩ :: levelSibs nodes cs (i + 1) pos

/-- Upward walk of `generateProofInternal`.  Parent ids strictly increase
along a chain of a built tree and are bounded by the node count, so the
fuel supplied by `generateProofInternal` is sufficient there; a `typeError`
result stands for an access to an `undefined` node (and fuel exhaustion
for the loop never exiting), both unreachable on built trees. -/
def genGo (t : Tree) (li : Nat) :
    Nat → Nat → List SiblingHash → Nat → Except TMTErr VerificationProof
  | 0, _, _, _ => .error .typeError
  | fuel + 1, cur, sibs, path =>
      match t.nodes[cur]? with
      | none => .error .typeError
      | some n =>
          match n.parent with
          | none => .ok ⟨li, sibs, path⟩
          | some pid =>
              match t.nodes[pid]? with
              | none => .error .typeError
              | some parent =>
                  match findPos cur parent.children 0 with
                  | none => .error .missingParent
                  | some pos =>
                      genGo t li fuel pid
                        (sibs ++ levelSibs t.nodes parent.children 0 pos) (path + 1)

/-- Source `generateProofInternal(leafIndex)`. -/
def generateProofInternal (t : Tree) (leafIndex : Nat) : Except TMTErr VerificationProof :=
  genGo t leafIndex (t.nodes.length + 1) leafIndex [] 0

/-- Source `generateProof(leafIndex)`: bounds check, then the internal
walk. -/
def generateProof (t : Tree) (leafIndex : Nat) : Except TMTErr VerificationProof :=
  if leafIndex < t.leafCount then generateProofInternal t leafIndex
  else .error (.invalidIndex leafIndex)

-- ---------------------- Proof verification ----------------------

/-- Result of the per-level sibling-consumption loop in
`verifyProofInternal`: either the loop hit a `return false` condition, or
it produced the filled slot array and the unconsumed sibling suffix. -/
inductive FillRes where
  | retFalse : FillRes
  | filled : List (Option HashV) → List SiblingHash → FillRes
deriving DecidableEq

/-- The sibling-consumption loop of `verifyProofInternal`: consume `need`
entries from the proof's sibling sequence, rejecting a claimed position
that duplicates the current position or is out of range (a negative
position is not representable here; that branch of the source is
vacuous), or an exhausted sibling sequence.  `slots` models the JS array
`childHashes`, allocated at the level's child count with holes
(`Option`). -/
def fillSiblings (pos : Nat) : Nat → List (Option HashV) → List SiblingHash → FillRes
  | 0, slots, rest => .filled slots rest
  | _ + 1, _, [] => .retFalse
  | need + 1, slots, sh :: rest =>
      if sh.pos = pos ∨ slots.length ≤ sh.pos then .retFalse
      else fillSiblings pos need (slots.set sh.pos (some sh.hash)) rest

/-- Hole check of `combineHashes` applied to the filled JS array: a hole
(`none`) makes `Uint8Array.set(undefined)` throw. -/
def allSome : List (Option HashV) → Option (List HashV)
  | [] => some []
  | none :: _ => none
  | some h :: rest => (allSome rest).map (h :: ·)

/-- The level loop of `verifyProofInternal`.  The sequential sibling
cursor `si` of the source is modelled by passing the unconsumed suffix of
`proof.siblingHashes`; the final `si === proof.siblingHashes.length`
check becomes emptiness of that suffix.  `none` models an uncaught
JavaScript `TypeError` (property access on an `undefined` node, or
`combineHashes` applied to an array with holes). -/
def verifyGo (t : Tree) (rootHash : HashV) :
    Nat → Nat → HashV → List SiblingHash → Option Bool
  | 0, _, curHash, rest => some (rest.isEmpty && decide (curHash = rootHash))
  | steps + 1, curID, curHash, rest =>
      match t.nodes[curID]? with
      | none => none
      | some n =>
          match n.parent with
          | none => some false
          | some pid =>
              match t.nodes[pid]? with
              | none => none
              | some parent =>
                  match findPos curID parent.children 0 with
                  | none => some false
                  | some pos =>
                      let len := parent.children.length
                      match fillSiblings pos (len - 1)
                          ((List.replicate len (none : Option HashV)).set pos (some curHash))
                          rest with
                      | .retFalse => some false
                      | .filled slots rest' =>
                          match allSome slots with
                          | none => none
                          | some hs => verifyGo t rootHash steps pid (combineHashes hs) rest'

/-- Source `verifyProofInternal(proof, leafHash, root)`. -/
def verifyProofInternal (t : Tree) (proof : VerificationProof) (leafHash : HashV)
    (root : Nat) : Option Bool :=
  verifyGo t (childHash t.nodes root) proof.pathLength proof.leafIndex leafHash
    proof.siblingHashes

/-- Source `verifyProof(proof, leafData)`: the public entry has no
`try`/`catch`, so an internal `TypeError` (`none`) escapes to the
caller. -/
def verifyProof (t : Tree) (proof : VerificationProof) (leafData : List Nat) :
    Option (Bool × Option TMTErr) :=
  match t.rootID with
  | none => some (false, some TMTErr.uninitialized)
  | some root =>
      (verifyProofInternal t proof (computeHash leafData) root).map (fun ok => (ok, none))

-- ---------------------- Verify ----------------------

/-- Source `verify(leafIndex, data)`: bounds check, initialization check,
direct leaf-digest comparison, then a proof round-trip inside
`try`/`catch` (a thrown error is returned as `[false, err]`). -/
def verify (t : Tree) (leafIndex : Nat) (data : List Nat) : Bool × Option TMTErr :=
  if ¬ leafIndex < t.leafCount then (false, some (.invalidIndex leafIndex))
  else
    match t.rootID with
    | none => (false, some TMTErr.uninitialized)
    | some root =>
        let exp := computeHash data
        if ¬ childHash t.nodes leafIndex = exp then (false, none)
        else
          match generateProofInternal t leafIndex with
          | .error e => (false, some e)
          | .ok proof =>
              match verifyProofInternal t proof exp root with
              | none => (false, some TMTErr.typeError)
              | some ok => (ok, none)

-- ---------------------- Update ----------------------

/-- Source `recomputeNodeHash(id)`: bounds check (throws
`InvalidIndexError`), leaves are left alone, an internal node's hash is
recombined from its current children's hashes. -/
def recomputeNodeHash (t : Tree) (id : Nat) : Tree × Option TMTErr :=
  if t.nodes.length ≤ id then (t, some (.invalidIndex id))
  else
    match t.nodes[id]? with
    | none => (t, some (.invalidIndex id))
    | some n =>
        if n.isLeaf then (t, none)
        else
          let hs := n.children.map (childHash t.nodes)
          ({ t with
              nodes := modifyNode t.nodes id (fun m => { m with hash := combineHashes hs }) },
           none)

/-- Sequential recomputation over a list of node ids, aborting at the
first thrown error (a thrown `TMTError` aborts the enclosing update). -/
def recomputeAll : Tree → List Nat → Tree × Option TMTErr
  | t, [] => (t, none)
  | t, id :: rest =>
      let r := recomputeNodeHash t id
      match r.2 with
      | none => recomputeAll r.1 rest
      | some _ => r

/-- The ancestor-collection walk shared by `updateAncestors` and
`collectAncestors`: the parent chain of `cur` in climb order.  Fuel
`nodes.length` is sufficient on built trees (parent ids strictly
increase); chain truncation on fuel exhaustion or an out-of-range node is
unreachable there. -/
def ancChain (nodes : List InternalNode) : Nat → Nat → List Nat
  | 0, _ => []
  | fuel + 1, cur =>
      match nodes[cur]? with
      | none => []
      | some n =>
          match n.parent with
          | none => []
          | some p => p :: ancChain nodes fuel p

/-- Source `updateAncestors(cur)`: collect the parent chain leaf-to-root,
then recompute hashes iterating the collected array from its last element
to its first — that is, from the root down to the leaf's immediate
parent. -/
def updateAncestors (t : Tree) (cur : Nat) : Tree × Option TMTErr :=
  recomputeAll t (ancChain t.nodes t.nodes.length cur).reverse

/-- Source `update(leafIndex, newData)`: bounds check, set the leaf's data
and digest, recompute the ancestors. -/
def update (t : Tree) (leafIndex : Nat) (newData : List Nat) : Tree × Option TMTErr :=
  if ¬ leafIndex < t.leafCount then (t, some (.invalidIndex leafIndex))
  else
    let t' := { t with
                leafData := t.leafData.set leafIndex newData,
                nodes := modifyNode t.nodes leafIndex
                  (fun n => { n with hash := computeHash newData }) }
    updateAncestors t' leafIndex

-- ---------------------- Batch update ----------------------

/-- JS `Set.add` on an insertion-ordered set. -/
def addUnique (l : List Nat) (x : Nat) : List Nat := if x ∈ l then l else l ++ [x]

/-- Source `collectAncestors(cur, set)`: add every ancestor of `cur` to
the insertion-ordered set. -/
def collectInto (nodes : List InternalNode) : Nat → Nat → List Nat → List Nat
  | 0, _, s => s
  | fuel + 1, cur, s =>
      match nodes[cur]? with
      | none => s
      | some n =>
          match n.parent with
          | none => s
          | some p => collectInto nodes fuel p (addUnique s p)

/-- The apply-updates loop of `batchUpdate` (runs after validation). -/
def applyLeafUpdates : Tree → List (Nat × List Nat) → Tree
  | t, [] => t
  | t, (idx, d) :: rest =>
      applyLeafUpdates
        { t with
          leafData := t.leafData.set idx d,
          nodes := modifyNode t.nodes idx (fun n => { n with hash := computeHash d }) }
        rest

/-- The upward sweep of `batchUpdate`: pop the queue front, skip already
recomputed ids, otherwise recompute and enqueue the parent.  Each id is
recomputed at most once, so iterations are bounded by the initial queue
plus the node count — the fuel `batchUpdate` supplies. -/
def sweep : Nat → Tree → List Nat → List Nat → Tree × Option TMTErr
  | 0, t, _, _ => (t, none)
  | fuel + 1, t, queue, seen =>
      match queue with
      | [] => (t, none)
      | id :: queue' =>
          if id ∈ seen then sweep fuel t queue' seen
          else
            let r := recomputeNodeHash t id
            match r.2 with
            | some e => (r.1, some e)
            | none =>
                match r.1.nodes[id]? with
                | none => (r.1, some TMTErr.typeError)
                | some n =>
                    match n.parent with
                    | none => sweep fuel r.1 queue' (seen ++ [id])
                    | some p => sweep fuel r.1 (queue' ++ [p]) (seen ++ [id])

/-- Source `batchUpdate(updates)`: validate every index up front (the
first invalid one aborts the call before any mutation), then set every
leaf's data and digest, then collect the deduplicated affected ancestors
and run the upward sweep. -/
def batchUpdate (t : Tree) (updates : List (Nat × List Nat)) : Tree × Option TMTErr :=
  match updates.find? (fun u => decide (t.leafCount ≤ u.1)) with
  | some u => (t, some (.invalidIndex u.1))
  | none =>
      let t' := applyLeafUpdates t updates
      let affected := updates.foldl (fun s u => collectInto t'.nodes t'.nodes.length u.1 s) []
      sweep (affected.length + t'.nodes.length + 1) t' affected []

-- ---------------------- Serialization ----------------------

/-- Source `SerializableNode` (the 32-byte digest's `number[]` JSON
encoding is abstracted to the digest value itself). -/
structure SerializableNode where
  id : Nat
  hash : HashV
  children : List Nat
  isLeaf : Bool
  parent : Option Nat
deriving DecidableEq

/-- Source `SerializedBlob` — the logical shape of the snapshot; the JSON
text encoding is outside the spec's scope. -/
structure SerializedBlob where
  nodes : List SerializableNode
  leafData : List (List Nat)
  rootID : Option Nat
  leafCount : Nat
deriving DecidableEq

/-- Source `serialize()`: record every node with its position as `id`,
copy the leaf data, keep root id and leaf count. -/
def serialize (t : Tree) : SerializedBlob :=
  { nodes := t.nodes.enum.map (fun p => ⟨p.1, p.2.hash, p.2.children, p.2.isLeaf, p.2.parent⟩),
    leafData := t.leafData,
    rootID := t.rootID,
    leafCount := t.leafCount }

/-- Source `TernaryMeshTree.deserialize(data, cfg)`: rebuild the node and
leaf arrays verbatim in blob order on a fresh instance; nothing is
re-verified. -/
def deserialize (data : SerializedBlob) (cfg : Config) : Tree :=
  { nodes := data.nodes.map (fun sn => ⟨sn.hash, sn.children, sn.isLeaf, sn.parent⟩),
    leafData := data.leafData,
    rootID := data.rootID,
    leafCount := data.leafCount,
    cfg := cfg,
    hashCache := [] }

/-- Source `getRootHash()`. -/
def getRootHash (t : Tree) : Option HashV × Bool :=
  match t.rootID with
  | none => (none, false)
  | some r => (some (childHash t.nodes r), true)

-- ===================== Helper lemmas =====================

theorem modifyNode_length (nodes : List InternalNode) (i : Nat)
    (f : InternalNode → InternalNode) : (modifyNode nodes i f).length = nodes.length := by
  unfold modifyNode
  cases h : nodes[i]? <;> simp

theorem modifyNode_get_ne (nodes : List InternalNode) (i j : Nat)
    (f : InternalNode → InternalNode) (h : i ≠ j) :
    (modifyNode nodes i f)[j]? = nodes[j]? := by
  unfold modifyNode
  cases hh : nodes[i]? with
  | none => rfl
  | some n => exact List.getElem?_set_ne h

theorem modifyNode_get_self (nodes : List InternalNode) (i : Nat)
    (f : InternalNode → InternalNode) {n : InternalNode} (h : nodes[i]? = some n) :
    (modifyNode nodes i f)[i]? = some (f n) := by
  unfold modifyNode
  rw [h]
  exact List.getElem?_set_eq (List.getElem?_eq_some.mp h).1

theorem modifyNode_get_none (nodes : List InternalNode) (i : Nat)
    (f : InternalNode → InternalNode) (h : nodes[i]? = none) :
    (modifyNode nodes i f)[i]? = none := by
  unfold modifyNode
  rw [h]
  exact h

/-- A `setParents` write is characterized pointwise: a chunk member gets
its parent field set (idempotently), anything else is untouched. -/
theorem setParents_get (nodes : List InternalNode) (chunk : List Nat) (pid : Nat)
    (j : Nat) :
    (setParents nodes chunk pid)[j]? =
      if j ∈ chunk then (nodes[j]?).map (fun n => { n with parent := some pid })
      else nodes[j]? := by
  induction chunk generalizing nodes with
  | nil => simp [setParents]
  | cons c cs ih =>
      have step : setParents nodes (c :: cs) pid =
          setParents (modifyNode nodes c (fun n => { n with parent := some pid })) cs pid := rfl
      rw [step, ih]
      by_cases hcs : j ∈ cs
      · simp only [hcs, if_true]
        rw [if_pos (List.mem_cons_of_mem _ hcs)]
        by_cases hc : c = j
        · subst hc
          cases hn : nodes[c]? with
          | none => simp [modifyNode_get_none _ _ _ hn, hn]
          | some n => simp [modifyNode_get_self _ _ _ hn, hn]
        · rw [modifyNode_get_ne _ _ _ _ hc]
      · simp only [hcs, if_false]
        by_cases hc : j = c
        · subst hc
          rw [if_pos (List.mem_cons_self _ _)]
          cases hn : nodes[j]? with
          | none => simp [modifyNode_get_none _ _ _ hn, hn]
          | some n => simp [modifyNode_get_self _ _ _ hn, hn]
        · rw [if_neg (by simp [hc, hcs])]
          exact modifyNode_get_ne _ _ _ _ (fun h => hc h.symm)

theorem setParents_length (nodes : List InternalNode) (chunk : List Nat) (pid : Nat) :
    (setParents nodes chunk pid).length = nodes.length := by
  induction chunk generalizing nodes with
  | nil => rfl
  | cons c cs ih =>
      have step : setParents nodes (c :: cs) pid =
          setParents (modifyNode nodes c (fun n => { n with parent := some pid })) cs pid := rfl
      rw [step, ih, modifyNode_length]

/-- `childHash` only reads hash fields, which `setParents` never touches. -/
theorem childHash_setParents (nodes : List InternalNode) (chunk : List Nat) (pid c : Nat) :
    childHash (setParents nodes chunk pid) c = childHash nodes c := by
  unfold childHash
  rw [setParents_get]
  by_cases h : c ∈ chunk
  · simp only [h, if_true]
    cases nodes[c]? <;> rfl
  · simp [h]

theorem childHash_append_lt {ns : List InternalNode} {l : List InternalNode} {c : Nat}
    (h : c < ns.length) : childHash (ns ++ l) c = childHash ns c := by
  simp [childHash, List.getElem?_append, h]

-- ---------------------- chunk lemmas ----------------------

theorem chunkGo_flatten {k : Nat} (hk : k ≠ 0) :
    ∀ (fuel : Nat) (arr : List α), arr.length ≤ fuel → (chunkGo k fuel arr).flatten = arr := by
  intro fuel
  induction fuel with
  | zero =>
      intro arr h
      match arr with
      | [] => rfl
      | a :: rest => simp at h
  | succ fuel ih =>
      intro arr h
      match arr with
      | [] => rfl
      | a :: rest =>
          show (((a :: rest).take k :: chunkGo k fuel ((a :: rest).drop k)).flatten = _)
          rw [List.flatten_cons,
            ih _ (by simp only [List.length_drop, List.length_cons] at h ⊢; omega),
            List.take_append_drop]

theorem chunkBy_flatten (arr : List α) : (chunkBy arr 3).flatten = arr := by
  unfold chunkBy
  rw [if_neg (by omega)]
  exact chunkGo_flatten (by omega) arr.length arr le_rfl

theorem chunkGo_ne_nil {k : Nat} (hk : k ≠ 0) :
    ∀ (fuel : Nat) (arr : List α), ∀ c ∈ chunkGo k fuel arr, c ≠ [] := by
  intro fuel
  induction fuel with
  | zero =>
      intro arr c hc
      match arr with
      | [] => simp [chunkGo] at hc
      | a :: rest => simp [chunkGo] at hc
  | succ fuel ih =>
      intro arr c hc
      match arr with
      | [] => simp [chunkGo] at hc
      | a :: rest =>
          simp only [chunkGo, List.mem_cons] at hc
          cases hc with
          | inl h =>
              subst h
              match k, hk with
              | kk + 1, _ => simp
          | inr h => exact ih _ _ h

theorem chunkBy_mem_ne_nil (arr : List α) : ∀ c ∈ chunkBy arr 3, c ≠ [] := by
  unfold chunkBy
  rw [if_neg (by omega)]
  exact chunkGo_ne_nil (by omega) arr.length arr

-- ---------------------- build invariant ----------------------

/-- Invariant of `build`'s bottom-up loop relating the node array to the
current layer: the layer lists exactly the parentless nodes without
duplicates, every parent pointer goes strictly upward to an internal node
listing the child, and every internal node's hash is the combination of
its current children's hashes. -/
structure BInv (nodes : List InternalNode) (current : List Nat) : Prop where
  nodup : current.Nodup
  cur_lt : ∀ i ∈ current, i < nodes.length
  cur_parent_none : ∀ i ∈ current, ∀ (n : InternalNode), nodes[i]? = some n → n.parent = none
  parent_none_mem : ∀ (j : Nat) (n : InternalNode), nodes[j]? = some n → n.parent = none →
      j ∈ current
  parent_wf : ∀ (j : Nat) (n : InternalNode) (p : Nat), nodes[j]? = some n →
      n.parent = some p →
      j < p ∧ ∃ pn : InternalNode, nodes[p]? = some pn ∧ pn.isLeaf = false ∧ j ∈ pn.children
  internal_wf : ∀ (p : Nat) (pn : InternalNode), nodes[p]? = some pn → pn.isLeaf = false →
      pn.hash = combineHashes (pn.children.map (childHash nodes)) ∧
      ∀ c ∈ pn.children, c < p

theorem appendParent_fst_length (ns : List InternalNode) (chunk : List Nat) (h : HashV) :
    (appendParent ns chunk h).1.length = ns.length + 1 := by
  unfold appendParent
  simp [setParents_length]

theorem appendParent_get (ns : List InternalNode) (chunk : List Nat) (h : HashV) (j : Nat)
    (hchunk : ∀ c ∈ chunk, c < ns.length) :
    (appendParent ns chunk h).1[j]? =
      if j ∈ chunk then (ns[j]?).map (fun n => { n with parent := some ns.length })
      else (ns ++ [⟨h, chunk, false, none⟩])[j]? := by
  unfold appendParent
  simp only
  rw [setParents_get]
  by_cases hj : j ∈ chunk
  · simp only [hj, if_true]
    congr 1
    simp [List.getElem?_append, hchunk _ hj]
  · simp [hj]

theorem appendParent_childHash (ns : List InternalNode) (chunk : List Nat) (h : HashV)
    (c : Nat) (hc : c < ns.length) (hchunk : ∀ x ∈ chunk, x < ns.length) :
    childHash (appendParent ns chunk h).1 c = childHash ns c := by
  unfold childHash
  rw [appendParent_get _ _ _ _ hchunk]
  by_cases hj : c ∈ chunk
  · simp only [hj, if_true]
    cases ns[c]? <;> rfl
  · simp only [hj, if_false]
    simp [List.getElem?_append, hc]

/-- Appending one parent over a chunk of the current layer preserves the
build invariant, the chunk leaving the layer and the new parent joining
it. -/
theorem appendParent_inv {ns : List InternalNode} {chunk X : List Nat}
    (hinv : BInv ns (chunk ++ X)) :
    BInv (appendParent ns chunk (combineHashes (chunk.map (childHash ns)))).1
      (X ++ [ns.length]) := by
  set ph := combineHashes (chunk.map (childHash ns)) with hph
  set pnode : InternalNode := ⟨ph, chunk, false, none⟩ with hpnode
  have hchunk_lt : ∀ c ∈ chunk, c < ns.length :=
    fun c hc => hinv.cur_lt c (List.mem_append_left _ hc)
  have hX_lt : ∀ i ∈ X, i < ns.length :=
    fun i hi => hinv.cur_lt i (List.mem_append_right _ hi)
  have hpid_chunk : ns.length ∉ chunk := fun h => lt_irrefl _ (hchunk_lt _ h)
  have hpid_X : ns.length ∉ X := fun h => lt_irrefl _ (hX_lt _ h)
  have hget : ∀ j, (appendParent ns chunk ph).1[j]? =
      if j ∈ chunk then (ns[j]?).map (fun n => { n with parent := some ns.length })
      else (ns ++ [pnode])[j]? := fun j => appendParent_get ns chunk ph j hchunk_lt
  have hget_pid : (appendParent ns chunk ph).1[ns.length]? = some pnode := by
    rw [hget, if_neg hpid_chunk]
    exact List.getElem?_concat_length ns pnode
  have hget_lt : ∀ j, j < ns.length → j ∉ chunk →
      (appendParent ns chunk ph).1[j]? = ns[j]? := by
    intro j hj hjc
    rw [hget, if_neg hjc]
    simp [List.getElem?_append, hj]
  have hch : ∀ c, c < ns.length →
      childHash (appendParent ns chunk ph).1 c = childHash ns c :=
    fun c hc => appendParent_childHash ns chunk ph c hc hchunk_lt
  have hdisj : ∀ a ∈ chunk, a ∉ X := by
    have := List.nodup_append.mp hinv.nodup
    exact fun a ha hX => this.2.2 ha hX
  constructor
  · -- nodup
    have hXnodup : X.Nodup := (List.nodup_append.mp hinv.nodup).2.1
    rw [List.nodup_append]
    refine ⟨hXnodup, List.nodup_singleton _, ?_⟩
    intro a ha hb
    simp only [List.mem_singleton] at hb
    exact hpid_X (hb ▸ ha)
  · -- cur_lt
    intro i hi
    rw [appendParent_fst_length]
    rcases List.mem_append.mp hi with h | h
    · exact Nat.lt_succ_of_lt (hX_lt _ h)
    · simp only [List.mem_singleton] at h
      omega
  · -- cur_parent_none
    intro i hi n hn
    rcases List.mem_append.mp hi with h | h
    · rw [hget_lt i (hX_lt _ h) (fun hc => hdisj _ hc h)] at hn
      exact hinv.cur_parent_none i (List.mem_append_right _ h) n hn
    · simp only [List.mem_singleton] at h
      subst h
      rw [hget_pid] at hn
      cases hn
      rfl
  · -- parent_none_mem
    intro j n hn hnone
    by_cases hjc : j ∈ chunk
    · rw [hget, if_pos hjc] at hn
      cases hns : ns[j]? with
      | none => rw [hns] at hn; cases hn
      | some m =>
          rw [hns] at hn
          cases hn
          simp at hnone
    · by_cases hj : j < ns.length
      · rw [hget_lt j hj hjc] at hn
        have := hinv.parent_none_mem j n hn hnone
        rcases List.mem_append.mp this with h | h
        · exact absurd h hjc
        · exact List.mem_append_left _ h
      · by_cases hj2 : j = ns.length
        · subst hj2
          exact List.mem_append_right _ (List.mem_singleton_self _)
        · rw [hget, if_neg hjc] at hn
          rw [List.getElem?_append_right (by omega)] at hn
          have : j - ns.length ≠ 0 := by omega
          rw [List.getElem?_eq_none (by simp; omega)] at hn
          cases hn
  · -- parent_wf
    intro j n p hn hp
    by_cases hjc : j ∈ chunk
    · rw [hget, if_pos hjc] at hn
      cases hns : ns[j]? with
      | none => rw [hns] at hn; cases hn
      | some m =>
          rw [hns] at hn
          cases hn
          simp only at hp
          cases hp
          refine ⟨hchunk_lt _ hjc, pnode, hget_pid, rfl, hjc⟩
    · by_cases hj : j < ns.length
      · rw [hget_lt j hj hjc] at hn
        obtain ⟨hjp, pn, hpn, hleaf, hmem⟩ := hinv.parent_wf j n p hn hp
        have hplt : p < ns.length := (List.getElem?_eq_some.mp hpn).1
        refine ⟨hjp, ?_⟩
        by_cases hpc : p ∈ chunk
        · refine ⟨{ pn with parent := some ns.length }, ?_, hleaf, hmem⟩
          rw [hget, if_pos hpc, hpn]
          rfl
        · exact ⟨pn, by rw [hget_lt p hplt hpc]; exact hpn, hleaf, hmem⟩
      · by_cases hj2 : j = ns.length
        · subst hj2
          rw [hget_pid] at hn
          cases hn
          cases hp
        · rw [hget, if_neg hjc, List.getElem?_append_right (by omega),
            List.getElem?_eq_none (by simp; omega)] at hn
          cases hn
  · -- internal_wf
    intro p pn hpn hleaf
    by_cases hpc : p ∈ chunk
    · rw [hget, if_pos hpc] at hpn
      cases hns : ns[p]? with
      | none => rw [hns] at hpn; cases hpn
      | some m =>
          rw [hns] at hpn
          cases hpn
          simp only at hleaf
          obtain ⟨hh, hcl⟩ := hinv.internal_wf p m hns hleaf
          constructor
          · simp only
            rw [hh]
            congr 1
            apply List.map_congr_left
            intro c hc
            exact (hch c (lt_trans (hcl c hc) (hchunk_lt _ hpc))).symm
          · exact hcl
    · by_cases hp : p < ns.length
      · rw [hget_lt p hp hpc] at hpn
        obtain ⟨hh, hcl⟩ := hinv.internal_wf p pn hpn hleaf
        constructor
        · rw [hh]
          congr 1
          apply List.map_congr_left
          intro c hc
          exact (hch c (lt_trans (hcl c hc) hp)).symm
        · exact hcl
      · by_cases hp2 : p = ns.length
        · subst hp2
          rw [hget_pid] at hpn
          cases hpn
          constructor
          · simp only
            rw [hph]
            congr 1
            apply List.map_congr_left
            intro c hc
            exact (hch c (hchunk_lt _ hc)).symm
          · exact fun c hc => hchunk_lt _ hc
        · rw [hget, if_neg hpc, List.getElem?_append_right (by omega),
            List.getElem?_eq_none (by simp; omega)] at hpn
          cases hpn

/-- Frame relation for build: the node array only grows, and existing
nodes keep their hash, children and leaf flag (only parent
back-references get filled in). -/
def FieldsLE (ns ns' : List InternalNode) : Prop :=
  ns.length ≤ ns'.length ∧
  ∀ (j : Nat) (n : InternalNode), ns[j]? = some n →
    ∃ n' : InternalNode, ns'[j]? = some n' ∧
      n'.hash = n.hash ∧ n'.children = n.children ∧ n'.isLeaf = n.isLeaf

theorem FieldsLE.refl (ns : List InternalNode) : FieldsLE ns ns :=
  ⟨le_rfl, fun j n h => ⟨n, h, rfl, rfl, rfl⟩⟩

theorem FieldsLE.trans {a b c : List InternalNode} (h₁ : FieldsLE a b) (h₂ : FieldsLE b c) :
    FieldsLE a c := by
  refine ⟨le_trans h₁.1 h₂.1, ?_⟩
  intro j n h
  obtain ⟨n', hn', e1, e2, e3⟩ := h₁.2 j n h
  obtain ⟨n'', hn'', f1, f2, f3⟩ := h₂.2 j n' hn'
  exact ⟨n'', hn'', f1.trans e1, f2.trans e2, f3.trans e3⟩

theorem appendParent_fields {ns : List InternalNode} {chunk : List Nat} {h : HashV}
    (hchunk : ∀ c ∈ chunk, c < ns.length) :
    FieldsLE ns (appendParent ns chunk h).1 := by
  refine ⟨by rw [appendParent_fst_length]; omega, ?_⟩
  intro j n hn
  rw [appendParent_get ns chunk h j hchunk]
  by_cases hj : j ∈ chunk
  · exact ⟨{ n with parent := some ns.length }, by rw [if_pos hj, hn]; rfl, rfl, rfl, rfl⟩
  · refine ⟨n, ?_, rfl, rfl, rfl⟩
    rw [if_neg hj]
    have : j < ns.length := (List.getElem?_eq_some.mp hn).1
    simp [List.getElem?_append, this, hn]

theorem foldl_roundStep_snd_length (l : List (List Nat)) :
    ∀ st : List InternalNode × List Nat,
      (l.foldl roundStep st).2.length = st.2.length + l.length := by
  induction l with
  | nil => intro st; simp
  | cons c rest ih =>
      intro st
      simp only [List.foldl_cons, ih]
      simp [roundStep]
      omega

theorem buildRound_snd_length (nodes : List InternalNode) (current : List Nat) :
    (buildRound nodes current).2.length = (chunkBy current 3).length := by
  simp [buildRound, foldl_roundStep_snd_length]

theorem foldl_roundStep_inv :
    ∀ (chunks : List (List Nat)) (ns : List InternalNode) (next : List Nat),
      BInv ns (chunks.flatten ++ next) →
      BInv (chunks.foldl roundStep (ns, next)).1 (chunks.foldl roundStep (ns, next)).2 ∧
      FieldsLE ns (chunks.foldl roundStep (ns, next)).1 := by
  intro chunks
  induction chunks with
  | nil =>
      intro ns next h
      simp only [List.foldl_nil]
      exact ⟨by simpa using h, FieldsLE.refl ns⟩
  | cons chunk rest ih =>
      intro ns next h
      have hstep : (chunk :: rest).foldl roundStep (ns, next) =
          rest.foldl roundStep (roundStep (ns, next) chunk) := rfl
      have hrs : roundStep (ns, next) chunk =
          ((appendParent ns chunk (combineHashes (chunk.map (childHash ns)))).1,
           next ++ [ns.length]) := rfl
      have h' : BInv ns (chunk ++ (rest.flatten ++ next)) := by
        rw [List.flatten_cons, List.append_assoc] at h
        exact h
      have hinv' := appendParent_inv h'
      rw [List.append_assoc] at hinv'
      have hchunk_lt : ∀ c ∈ chunk, c < ns.length :=
        fun c hc => h'.cur_lt c (List.mem_append_left _ hc)
      have := ih (appendParent ns chunk (combineHashes (chunk.map (childHash ns)))).1
        (next ++ [ns.length]) hinv'
      rw [hstep, hrs]
      exact ⟨this.1, (appendParent_fields hchunk_lt).trans this.2⟩

theorem buildRound_inv {nodes : List InternalNode} {current : List Nat}
    (h : BInv nodes current) :
    BInv (buildRound nodes current).1 (buildRound nodes current).2 ∧
    FieldsLE nodes (buildRound nodes current).1 := by
  unfold buildRound
  apply foldl_roundStep_inv
  rw [chunkBy_flatten, List.append_nil]
  exact h

theorem buildRound_snd_ne_nil {nodes : List InternalNode} {current : List Nat}
    (h : current ≠ []) : (buildRound nodes current).2 ≠ [] := by
  have hlen := buildRound_snd_length nodes current
  intro hnil
  rw [hnil] at hlen
  have hc : (chunkBy current 3) = [] :=
    List.length_eq_zero.mp hlen.symm
  apply h
  rw [← chunkBy_flatten current, hc]
  rfl

theorem chunkGo3_length :
    ∀ (fuel : Nat) (arr : List α), arr.length ≤ fuel →
      (chunkGo 3 fuel arr).length = (arr.length + 2) / 3 := by
  intro fuel
  induction fuel with
  | zero =>
      intro arr h
      match arr with
      | [] => simp [chunkGo]
      | a :: rest => simp at h
  | succ fuel ih =>
      intro arr h
      match arr with
      | [] => simp [chunkGo]
      | a :: rest =>
          show ((a :: rest).take 3 :: chunkGo 3 fuel ((a :: rest).drop 3)).length = _
          rw [List.length_cons,
            ih _ (by simp only [List.length_drop, List.length_cons] at h ⊢; omega)]
          simp only [List.length_drop, List.length_cons]
          omega

theorem chunkBy3_length (arr : List α) : (chunkBy arr 3).length = (arr.length + 2) / 3 := by
  unfold chunkBy
  rw [if_neg (by omega)]
  exact chunkGo3_length arr.length arr le_rfl

theorem buildLoopGo_inv :
    ∀ (fuel : Nat) (nodes : List InternalNode) (current : List Nat),
      BInv nodes current → current ≠ [] →
      BInv (buildLoopGo fuel (nodes, current)).1 (buildLoopGo fuel (nodes, current)).2 ∧
      (buildLoopGo fuel (nodes, current)).2 ≠ [] ∧
      FieldsLE nodes (buildLoopGo fuel (nodes, current)).1 := by
  intro fuel
  induction fuel with
  | zero => exact fun nodes current h hne => ⟨h, hne, FieldsLE.refl nodes⟩
  | succ fuel ih =>
      intro nodes current h hne
      by_cases hlen : 1 < current.length
      · have hstep : buildLoopGo (fuel + 1) (nodes, current) =
            buildLoopGo fuel (buildRound nodes current) := by
          simp [buildLoopGo, hlen]
        rw [hstep]
        obtain ⟨hinv, hfle⟩ := buildRound_inv h
        have hne' : (buildRound nodes current).2 ≠ [] := buildRound_snd_ne_nil hne
        obtain ⟨a, b, c⟩ := ih (buildRound nodes current).1 (buildRound nodes current).2 hinv hne'
        rw [show buildLoopGo fuel (buildRound nodes current) =
          buildLoopGo fuel ((buildRound nodes current).1, (buildRound nodes current).2) from rfl]
        exact ⟨a, b, hfle.trans c⟩
      · have hstep : buildLoopGo (fuel + 1) (nodes, current) = (nodes, current) := by
          simp [buildLoopGo, hlen]
        rw [hstep]
        exact ⟨h, hne, FieldsLE.refl nodes⟩

theorem buildLoopGo_short :
    ∀ (fuel : Nat) (nodes : List InternalNode) (current : List Nat),
      current.length ≤ fuel → (buildLoopGo fuel (nodes, current)).2.length ≤ 1 := by
  intro fuel
  induction fuel with
  | zero =>
      intro nodes current h
      show current.length ≤ 1
      omega
  | succ fuel ih =>
      intro nodes current h
      by_cases hlen : 1 < current.length
      · have hstep : buildLoopGo (fuel + 1) (nodes, current) =
            buildLoopGo fuel (buildRound nodes current) := by
          simp [buildLoopGo, hlen]
        rw [hstep,
          show buildLoopGo fuel (buildRound nodes current) =
            buildLoopGo fuel ((buildRound nodes current).1, (buildRound nodes current).2) from rfl]
        apply ih
        rw [buildRound_snd_length, chunkBy3_length]
        omega
      · have hstep : buildLoopGo (fuel + 1) (nodes, current) = (nodes, current) := by
          simp [buildLoopGo, hlen]
        rw [hstep]
        show current.length ≤ 1
        omega

-- ---------------------- cache lemmas ----------------------

/-- Every cache entry maps a content key to that content's digest — the
only way entries are ever created. -/
def CacheWF (cache : List (List Nat × HashV)) : Prop :=
  ∀ kv ∈ cache, kv.2 = computeHash kv.1

theorem cacheLookup_some {cache : List (List Nat × HashV)} {key : List Nat} {hv : HashV}
    (h : CacheWF cache) (hl : cacheLookup cache key = some hv) : hv = computeHash key := by
  unfold cacheLookup at hl
  cases hf : cache.find? (fun kv => kv.1 = key) with
  | none => rw [hf] at hl; cases hl
  | some kv =>
      rw [hf] at hl
      cases hl
      have hmem := List.mem_of_find?_eq_some hf
      have hp := List.find?_some hf
      simp only [decide_eq_true_eq] at hp
      rw [h kv hmem, hp]

theorem getCachedHash_fst {cfg : Config} {cache : List (List Nat × HashV)} {data : List Nat}
    (h : CacheWF cache) : (getCachedHash cfg cache data).1 = computeHash data := by
  unfold getCachedHash
  by_cases hc : cfg.enableCaching
  · simp only [hc, Bool.not_true, Bool.false_eq_true, if_false]
    cases hl : cacheLookup cache data with
    | none => by_cases hsz : cache.length < cfg.maxCacheSize <;> simp [hsz]
    | some hv => simpa using cacheLookup_some h hl
  · simp [hc]

theorem getCachedHash_wf {cfg : Config} {cache : List (List Nat × HashV)} {data : List Nat}
    (h : CacheWF cache) : CacheWF (getCachedHash cfg cache data).2 := by
  unfold getCachedHash
  by_cases hc : cfg.enableCaching
  · simp only [hc, Bool.not_true, Bool.false_eq_true, if_false]
    cases hl : cacheLookup cache data with
    | none =>
        by_cases hsz : cache.length < cfg.maxCacheSize
        · simp only [hsz, if_true]
          intro kv hkv
          rcases List.mem_append.mp hkv with hm | hm
          · exact h kv hm
          · simp only [List.mem_singleton] at hm
            rw [hm]
        · simpa [hsz] using h
    | some hv => simpa using h
  · simpa [hc] using h

theorem getCachedHash_mono {cfg : Config} {cache : List (List Nat × HashV)} {data : List Nat}
    {kv : List Nat × HashV} (h : kv ∈ cache) : kv ∈ (getCachedHash cfg cache data).2 := by
  unfold getCachedHash
  by_cases hc : cfg.enableCaching
  · simp only [hc, Bool.not_true, Bool.false_eq_true, if_false]
    cases hl : cacheLookup cache data with
    | none =>
        by_cases hsz : cache.length < cfg.maxCacheSize
        · simp only [hsz, if_true]
          exact List.mem_append_left _ h
        · simpa [hsz] using h
    | some hv => simpa using h
  · simpa [hc] using h

-- ---------------------- buildLeaves lemmas ----------------------

theorem buildLeaves_spec (cfg : Config) :
    ∀ (blocks : List (List Nat)) (cache : List (List Nat × HashV)), CacheWF cache →
      (buildLeaves cfg cache blocks).1 =
        blocks.map (fun d => ⟨computeHash d, [], true, none⟩) ∧
      (buildLeaves cfg cache blocks).2.1 = blocks ∧
      CacheWF (buildLeaves cfg cache blocks).2.2 := by
  intro blocks
  induction blocks with
  | nil => exact fun cache h => ⟨rfl, rfl, h⟩
  | cons d rest ih =>
      intro cache h
      obtain ⟨h1, h2, h3⟩ := ih (getCachedHash cfg cache d).2 (getCachedHash_wf h)
      refine ⟨?_, ?_, h3⟩
      · show (⟨(getCachedHash cfg cache d).1, [], true, none⟩ : InternalNode) ::
            (buildLeaves cfg (getCachedHash cfg cache d).2 rest).1 = _
        rw [h1, getCachedHash_fst h]
        rfl
      · show d :: (buildLeaves cfg (getCachedHash cfg cache d).2 rest).2.1 = _
        rw [h2]

theorem buildLeaves_cache_mono {cfg : Config} :
    ∀ (blocks : List (List Nat)) (cache : List (List Nat × HashV))
      (kv : List Nat × HashV), kv ∈ cache → kv ∈ (buildLeaves cfg cache blocks).2.2 := by
  intro blocks
  induction blocks with
  | nil => exact fun cache kv h => h
  | cons d rest ih =>
      intro cache kv h
      exact ih (getCachedHash cfg cache d).2 kv (getCachedHash_mono h)

-- ---------------------- padLeaves lemmas ----------------------

theorem padLeaves_spec (nodes : List InternalNode) (leafData : List (List Nat)) (L : Nat)
    (hn : nodes.length = L) :
    padLeaves nodes leafData (List.range L) =
      (nodes ++ List.replicate ((3 - L % 3) % 3) ⟨computeHash [], [], true, none⟩,
       leafData ++ List.replicate ((3 - L % 3) % 3) [],
       List.range (L + (3 - L % 3) % 3)) := by
  unfold padLeaves
  have h3 : L % 3 = 0 ∨ L % 3 = 1 ∨ L % 3 = 2 := by omega
  rcases h3 with h | h | h
  · have hcnt : (3 - L % 3) % 3 = 0 := by omega
    rw [hcnt]
    simp [padLoop, List.length_range, h]
  · have hcnt : (3 - L % 3) % 3 = 2 := by omega
    rw [hcnt]
    have e1 : ¬ L % 3 = 0 := by omega
    have e2 : ¬ (L + 1) % 3 = 0 := by omega
    have e3 : (L + 2) % 3 = 0 := by omega
    simp [padLoop, List.length_range, e1, e2, e3, hn, List.range_succ]
  · have hcnt : (3 - L % 3) % 3 = 1 := by omega
    rw [hcnt]
    have e1 : ¬ L % 3 = 0 := by omega
    have e2 : (L + 1) % 3 = 0 := by omega
    simp [padLoop, List.length_range, e1, e2, hn, List.range_succ]

-- ---------------------- initial invariant ----------------------

theorem BInv_of_all_leaves {nodes : List InternalNode}
    (hall : ∀ (j : Nat) (n : InternalNode), nodes[j]? = some n →
      n.children = [] ∧ n.isLeaf = true ∧ n.parent = none) :
    BInv nodes (List.range nodes.length) := by
  constructor
  · exact List.nodup_range _
  · intro i hi
    exact List.mem_range.mp hi
  · intro i hi n hn
    exact (hall i n hn).2.2
  · intro j n hn _
    exact List.mem_range.mpr (List.getElem?_eq_some.mp hn).1
  · intro j n p hn hp
    rw [(hall j n hn).2.2] at hp
    cases hp
  · intro p pn hpn hleaf
    rw [(hall p pn hpn).2.1] at hleaf
    cases hleaf

theorem initial_leaves_all {blocks : List (List Nat)} {cnt : Nat} :
    ∀ (j : Nat) (n : InternalNode),
      (blocks.map (fun d => (⟨computeHash d, [], true, none⟩ : InternalNode)) ++
        List.replicate cnt ⟨computeHash [], [], true, none⟩)[j]? = some n →
      n.children = [] ∧ n.isLeaf = true ∧ n.parent = none := by
  intro j n hn
  rw [List.getElem?_append] at hn
  by_cases hj : j < (blocks.map (fun d => (⟨computeHash d, [], true, none⟩ : InternalNode))).length
  · rw [if_pos hj, List.getElem?_map] at hn
    cases hb : blocks[j]? with
    | none => rw [hb] at hn; cases hn
    | some d =>
        rw [hb] at hn
        cases hn
        exact ⟨rfl, rfl, rfl⟩
  · rw [if_neg hj, List.getElem?_replicate] at hn
    by_cases hc : j - (blocks.map (fun d => (⟨computeHash d, [], true, none⟩ : InternalNode))).length < cnt
    · rw [if_pos hc] at hn
      cases hn
      exact ⟨rfl, rfl, rfl⟩
    · rw [if_neg hc] at hn
      cases hn


-- ---------------------- built-tree well-formedness ----------------------

/-- A well-formed built tree: it has a root, and the node array satisfies
the build invariant with the root as the only parentless node. -/
def WF (t : Tree) : Prop :=
  ∃ r : Nat, t.rootID = some r ∧ BInv t.nodes [r]

theorem build_eq {t : Tree} {blocks : List (List Nat)} (hne : blocks ≠ []) :
    build t blocks =
      (let r := buildLeaves t.cfg t.hashCache blocks
       let p := padLeaves r.1 r.2.1 (List.range blocks.length)
       let b := buildLoop p.1 p.2.2
       ({ nodes := b.1, leafData := p.2.1, rootID := some (b.2.headD 0),
          leafCount := blocks.length, cfg := t.cfg, hashCache := r.2.2 },
        none)) := by
  cases blocks with
  | nil => exact absurd rfl hne
  | cons d rest => rfl

theorem singleton_of_short {l : List Nat} (hne : l ≠ []) (hlen : l.length ≤ 1) :
    l = [l.headD 0] := by
  match l with
  | [] => exact absurd rfl hne
  | [a] => rfl
  | a :: b :: rest => simp at hlen

/-- What a successful build guarantees: no error, correct `leafCount` and
configuration, leaf data equal to the blocks plus empty padding entries, a
well-formed cache, leaf nodes carrying the blocks' digests in input
order, padding leaves carrying the empty digest, and the built tree
satisfying the structural invariant `WF`. -/
theorem build_wf {t : Tree} {blocks : List (List Nat)}
    (hc : CacheWF t.hashCache) (hne : blocks ≠ []) :
    (build t blocks).2 = none ∧
    ((build t blocks).1).leafCount = blocks.length ∧
    ((build t blocks).1).cfg = t.cfg ∧
    ((build t blocks).1).leafData =
      blocks ++ List.replicate ((3 - blocks.length % 3) % 3) [] ∧
    CacheWF ((build t blocks).1).hashCache ∧
    (∀ (i : Nat) (d : List Nat), blocks[i]? = some d →
      ∃ n : InternalNode, ((build t blocks).1).nodes[i]? = some n ∧
        n.hash = computeHash d ∧ n.children = [] ∧ n.isLeaf = true) ∧
    (∀ i : Nat, blocks.length ≤ i → i < blocks.length + (3 - blocks.length % 3) % 3 →
      ∃ n : InternalNode, ((build t blocks).1).nodes[i]? = some n ∧
        n.hash = computeHash [] ∧ n.children = [] ∧ n.isLeaf = true) ∧
    WF (build t blocks).1 := by
  obtain ⟨hL1, hL2, hL3⟩ := buildLeaves_spec t.cfg blocks t.hashCache hc
  have hlen0 : (buildLeaves t.cfg t.hashCache blocks).1.length = blocks.length := by
    rw [hL1, List.length_map]
  have hpad := padLeaves_spec (buildLeaves t.cfg t.hashCache blocks).1
    (buildLeaves t.cfg t.hashCache blocks).2.1 blocks.length hlen0
  set L := blocks.length with hL
  set cnt := (3 - L % 3) % 3 with hcnt
  have hLpos : 0 < L := by
    cases blocks with
    | nil => exact absurd rfl hne
    | cons d rest => simp [hL]
  -- the padded leaf array
  set nds : List InternalNode :=
    blocks.map (fun d => (⟨computeHash d, [], true, none⟩ : InternalNode)) ++
      List.replicate cnt ⟨computeHash [], [], true, none⟩ with hnds
  have hndslen : nds.length = L + cnt := by
    rw [hnds]
    simp [hL]
  have hpad' : padLeaves (buildLeaves t.cfg t.hashCache blocks).1
      (buildLeaves t.cfg t.hashCache blocks).2.1 (List.range L) =
      (nds, blocks ++ List.replicate cnt [], List.range (L + cnt)) := by
    rw [hpad, hL1, hL2]
  -- initial invariant
  have hBI0 : BInv nds (List.range (L + cnt)) := by
    have := @BInv_of_all_leaves nds initial_leaves_all
    rwa [hndslen] at this
  have hrne : List.range (L + cnt) ≠ [] := by
    rw [ne_eq, List.range_eq_nil]
    omega
  -- run the loop
  have hloop : buildLoop nds (List.range (L + cnt)) =
      buildLoopGo (List.range (L + cnt)).length (nds, List.range (L + cnt)) := rfl
  obtain ⟨hBI, hBne, hFLE⟩ :=
    buildLoopGo_inv (List.range (L + cnt)).length nds (List.range (L + cnt)) hBI0 hrne
  have hshort :=
    buildLoopGo_short (List.range (L + cnt)).length nds (List.range (L + cnt)) le_rfl
  have hsing := singleton_of_short hBne hshort
  rw [build_eq hne]
  simp only [hpad', hloop]
  refine ⟨trivial, trivial, trivial, trivial, hL3, ?_, ?_, ?_⟩
  · -- original leaves
    intro i d hd
    have hi : i < L := by
      rw [hL]
      exact (List.getElem?_eq_some.mp hd).1
    have hndsi : nds[i]? = some ⟨computeHash d, [], true, none⟩ := by
      rw [hnds, List.getElem?_append, if_pos (by simpa [hL] using hi), List.getElem?_map, hd]
      rfl
    obtain ⟨n, hn, e1, e2, e3⟩ := hFLE.2 i _ hndsi
    exact ⟨n, hn, e1, e2, e3⟩
  · -- padding leaves
    intro i h1 h2
    have hndsi : nds[i]? = some ⟨computeHash [], [], true, none⟩ := by
      rw [hnds, List.getElem?_append,
        if_neg (by simp [hL]; omega), List.getElem?_replicate,
        if_pos (by simp [hL]; omega)]
    obtain ⟨n, hn, e1, e2, e3⟩ := hFLE.2 i _ hndsi
    exact ⟨n, hn, e1, e2, e3⟩
  · -- WF
    refine ⟨(buildLoopGo (List.range (L + cnt)).length (nds, List.range (L + cnt))).2.headD 0,
      rfl, ?_⟩
    rw [← hsing]
    exact hBI



-- ---------------------- proof round-trip lemmas ----------------------

theorem findPos_spec (cur : Nat) :
    ∀ (cs : List Nat) (i p : Nat), findPos cur cs i = some p →
      i ≤ p ∧ p - i < cs.length ∧ cs[p - i]? = some cur := by
  intro cs
  induction cs with
  | nil => intro i p h; cases h
  | cons c cs ih =>
      intro i p h
      unfold findPos at h
      by_cases hc : c = cur
      · rw [if_pos hc] at h
        cases h
        refine ⟨le_rfl, by simp, ?_⟩
        simp [hc]
      · rw [if_neg hc] at h
        obtain ⟨h1, h2, h3⟩ := ih (i + 1) p h
        refine ⟨by omega, by simp; omega, ?_⟩
        have : p - i = (p - (i + 1)) + 1 := by omega
        rw [this]
        simpa using h3

theorem findPos_isSome (cur : Nat) :
    ∀ (cs : List Nat) (i : Nat), cur ∈ cs → ∃ p, findPos cur cs i = some p := by
  intro cs
  induction cs with
  | nil => intro i h; cases h
  | cons c cs ih =>
      intro i h
      unfold findPos
      by_cases hc : c = cur
      · exact ⟨i, by rw [if_pos hc]⟩
      · rw [if_neg hc]
        rcases List.mem_cons.mp h with h1 | h1
        · exact absurd h1.symm hc
        · exact ih (i + 1) h1

theorem foldl_set_length :
    ∀ (S : List SiblingHash) (slots : List (Option HashV)),
      (S.foldl (fun sl sh => sl.set sh.pos (some sh.hash)) slots).length = slots.length := by
  intro S
  induction S with
  | nil => intro slots; rfl
  | cons sh S ih =>
      intro slots
      rw [List.foldl_cons, ih, List.length_set]

theorem fillSiblings_append (pos : Nat) :
    ∀ (S : List SiblingHash) (slots : List (Option HashV)) (rest : List SiblingHash),
      (∀ sh ∈ S, sh.pos ≠ pos ∧ sh.pos < slots.length) →
      fillSiblings pos S.length slots (S ++ rest) =
        .filled (S.foldl (fun sl sh => sl.set sh.pos (some sh.hash)) slots) rest := by
  intro S
  induction S with
  | nil => intro slots rest h; rfl
  | cons sh S ih =>
      intro slots rest h
      obtain ⟨h1, h2⟩ := h sh (List.mem_cons_self _ _)
      show fillSiblings pos (S.length + 1) slots (sh :: (S ++ rest)) = _
      unfold fillSiblings
      rw [if_neg (by push_neg; exact ⟨h1, by omega⟩)]
      rw [List.foldl_cons]
      exact ih _ rest (fun x hx => by
        have := h x (List.mem_cons_of_mem _ hx)
        rwa [List.length_set])

theorem levelSibs_length (nodes : List InternalNode) :
    ∀ (cs : List Nat) (i pos : Nat), i ≤ pos → pos < i + cs.length →
      (levelSibs nodes cs i pos).length + 1 = cs.length := by
  intro cs
  induction cs with
  | nil => intro i pos h1 h2; simp at h2; omega
  | cons c cs ih =>
      intro i pos h1 h2
      unfold levelSibs
      by_cases hip : i = pos
      · rw [if_pos hip]
        -- position pos = i is skipped; every remaining index differs from pos
        have hrest : ∀ (cs : List Nat) (k : Nat), pos < k →
            (levelSibs nodes cs k pos).length = cs.length := by
          intro cs
          induction cs with
          | nil => intro k hk; rfl
          | cons a as ih2 =>
              intro k hk
              unfold levelSibs
              rw [if_neg (by omega)]
              simp [ih2 (k + 1) (by omega)]
        simp [hrest cs (i + 1) (by omega)]
      · rw [if_neg hip]
        simp only [List.length_cons]
        rw [← ih (i + 1) pos (by omega) (by simp at h2 ⊢; omega)]

theorem levelSibs_bounds (nodes : List InternalNode) :
    ∀ (cs : List Nat) (i pos : Nat),
      ∀ sh ∈ levelSibs nodes cs i pos, i ≤ sh.pos ∧ sh.pos < i + cs.length ∧ sh.pos ≠ pos := by
  intro cs
  induction cs with
  | nil => intro i pos sh h; cases h
  | cons c cs ih =>
      intro i pos sh h
      unfold levelSibs at h
      by_cases hip : i = pos
      · rw [if_pos hip] at h
        obtain ⟨a, b, d⟩ := ih (i + 1) pos sh h
        exact ⟨by omega, by simp; omega, d⟩
      · rw [if_neg hip] at h
        rcases List.mem_cons.mp h with h1 | h1
        · subst h1
          exact ⟨le_rfl, by simp, hip⟩
        · obtain ⟨a, b, d⟩ := ih (i + 1) pos sh h1
          exact ⟨by omega, by simp at b ⊢; omega, d⟩

theorem levelSibs_foldl_get (nodes : List InternalNode) (pos len : Nat) :
    ∀ (cs : List Nat) (i : Nat) (slots : List (Option HashV)) (j : Nat),
      slots.length = len → i + cs.length ≤ len → j < len →
      ((levelSibs nodes cs i pos).foldl
          (fun sl sh => sl.set sh.pos (some sh.hash)) slots)[j]? =
        if i ≤ j ∧ j < i + cs.length ∧ j ≠ pos
        then some (some (childHash nodes (cs.getD (j - i) 0)))
        else slots[j]? := by
  intro cs
  induction cs with
  | nil =>
      intro i slots j h1 h2 h3
      rw [if_neg (by simp only [List.length_nil]; omega)]
      rfl
  | cons c cs ih =>
      intro i slots j h1 h2 h3
      simp only [List.length_cons] at h2
      unfold levelSibs
      by_cases hip : i = pos
      · rw [if_pos hip]
        rw [ih (i + 1) slots j h1 (by omega) h3]
        by_cases hj : i + 1 ≤ j ∧ j < i + 1 + cs.length ∧ j ≠ pos
        · rw [if_pos hj, if_pos (by simp only [List.length_cons]; omega)]
          have : j - i = (j - (i + 1)) + 1 := by omega
          rw [this]
          rfl
        · rw [if_neg hj, if_neg (by simp only [List.length_cons]; omega)]
      · rw [if_neg hip, List.foldl_cons]
        rw [ih (i + 1) (slots.set i (some (childHash nodes c))) j
          (by rw [List.length_set]; exact h1) (by omega) h3]
        by_cases hj : i + 1 ≤ j ∧ j < i + 1 + cs.length ∧ j ≠ pos
        · rw [if_pos hj, if_pos (by simp only [List.length_cons]; omega)]
          have : j - i = (j - (i + 1)) + 1 := by omega
          rw [this]
          rfl
        · rw [if_neg hj]
          by_cases hji : j = i
          · subst hji
            rw [if_pos ⟨le_rfl, by simp only [List.length_cons]; omega, hip⟩]
            rw [List.getElem?_set_eq (by omega)]
            simp
          · rw [if_neg (by simp only [List.length_cons]; omega),
              List.getElem?_set_ne (fun h => hji h.symm)]

theorem allSome_map_some : ∀ hs : List HashV, allSome (hs.map some) = some hs := by
  intro hs
  induction hs with
  | nil => rfl
  | cons h rest ih => simp [allSome, ih]



theorem childHash_of_get {nodes : List InternalNode} {c : Nat} {n : InternalNode}
    (h : nodes[c]? = some n) : childHash nodes c = n.hash := by
  simp [childHash, h]

theorem genGo_step_root {t : Tree} {li f cur : Nat}
    {n : InternalNode} (hn : t.nodes[cur]? = some n) (hp : n.parent = none)
    {sibs : List SiblingHash} {path : Nat} :
    genGo t li (f + 1) cur sibs path = .ok ⟨li, sibs, path⟩ := by
  simp [genGo, hn, hp]

theorem genGo_step {t : Tree} {li f cur p pos : Nat} {n pn : InternalNode}
    (hn : t.nodes[cur]? = some n) (hp : n.parent = some p)
    (hpn : t.nodes[p]? = some pn) (hpos : findPos cur pn.children 0 = some pos)
    {sibs : List SiblingHash} {path : Nat} :
    genGo t li (f + 1) cur sibs path =
      genGo t li f p (sibs ++ levelSibs t.nodes pn.children 0 pos) (path + 1) := by
  simp [genGo, hn, hp, hpn, hpos]

theorem verifyGo_step {t : Tree} {rh : HashV} {d curID p pos : Nat}
    {n pn : InternalNode} {curHash : HashV} {rest : List SiblingHash}
    (hn : t.nodes[curID]? = some n) (hp : n.parent = some p)
    (hpn : t.nodes[p]? = some pn) (hpos : findPos curID pn.children 0 = some pos) :
    verifyGo t rh (d + 1) curID curHash rest =
      match fillSiblings pos (pn.children.length - 1)
          ((List.replicate pn.children.length (none : Option HashV)).set pos
            (some curHash)) rest with
      | .retFalse => some false
      | .filled slots rest' =>
          match allSome slots with
          | none => none
          | some hs => verifyGo t rh d p (combineHashes hs) rest' := by
  simp [verifyGo, hn, hp, hpn, hpos]

theorem filled_slots_eq {nodes : List InternalNode} {children : List Nat} {pos cur : Nat}
    (hpc : children[pos]? = some cur) :
    (levelSibs nodes children 0 pos).foldl (fun sl sh => sl.set sh.pos (some sh.hash))
        ((List.replicate children.length (none : Option HashV)).set pos
          (some (childHash nodes cur))) =
      (children.map (childHash nodes)).map some := by
  have hpos_lt : pos < children.length := (List.getElem?_eq_some.mp hpc).1
  apply List.ext_getElem?
  intro j
  by_cases hj : j < children.length
  · rw [levelSibs_foldl_get nodes pos children.length children 0 _ j (by simp) (by omega) hj]
    rw [List.getElem?_map, List.getElem?_map]
    have hcj : children[j]? = some (children.getD j 0) := by
      rw [List.getD_eq_getElem?_getD, List.getElem?_eq_getElem hj]
      rfl
    by_cases hjp : j = pos
    · subst hjp
      rw [if_neg (by omega)]
      rw [List.getElem?_set_eq (by simpa using hpos_lt)]
      rw [hpc]
      rfl
    · rw [if_pos ⟨by omega, by omega, hjp⟩, hcj]
      rfl
  · have h1 : ((levelSibs nodes children 0 pos).foldl
        (fun sl sh => sl.set sh.pos (some sh.hash))
        ((List.replicate children.length (none : Option HashV)).set pos
          (some (childHash nodes cur)))).length = children.length := by
      rw [foldl_set_length, List.length_set, List.length_replicate]
    have e1 : ((levelSibs nodes children 0 pos).foldl
        (fun sl sh => sl.set sh.pos (some sh.hash))
        ((List.replicate children.length (none : Option HashV)).set pos
          (some (childHash nodes cur))))[j]? = none :=
      List.getElem?_eq_none (by rw [h1]; omega)
    have e2 : ((children.map (childHash nodes)).map some)[j]? = none :=
      List.getElem?_eq_none (by simp only [List.length_map]; omega)
    rw [e1, e2]

/-- On a well-formed built tree, the upward walk of proof generation
succeeds from any node, and replaying the generated sibling levels through
the verifier's reconstruction transforms the node's hash into the root
hash while consuming exactly the generated entries. -/
theorem walk_correct {t : Tree} {r : Nat} (hB : BInv t.nodes [r]) :
    ∀ (m cur : Nat) (n : InternalNode), t.nodes[cur]? = some n →
      t.nodes.length - cur ≤ m →
      ∀ (fuel : Nat), t.nodes.length - cur < fuel →
      ∀ (li path : Nat) (sibs : List SiblingHash),
        ∃ (S : List SiblingHash) (d : Nat),
          genGo t li fuel cur sibs path = .ok ⟨li, sibs ++ S, path + d⟩ ∧
          ∀ rest : List SiblingHash,
            verifyGo t (childHash t.nodes r) d cur n.hash (S ++ rest) =
              verifyGo t (childHash t.nodes r) 0 r (childHash t.nodes r) rest := by
  intro m
  induction m with
  | zero =>
      intro cur n hn hm
      have : cur < t.nodes.length := (List.getElem?_eq_some.mp hn).1
      omega
  | succ m ih =>
      intro cur n hn hm fuel hfuel li path sibs
      have hcur : cur < t.nodes.length := (List.getElem?_eq_some.mp hn).1
      obtain ⟨f, rfl⟩ : ∃ f, fuel = f + 1 := ⟨fuel - 1, by omega⟩
      cases hp : n.parent with
      | none =>
          have hcurr : cur = r := by
            have := hB.parent_none_mem cur n hn hp
            simpa using this
          refine ⟨[], 0, ?_, ?_⟩
          · rw [genGo_step_root hn hp]
            simp
          · intro rest
            subst hcurr
            rw [childHash_of_get hn]
            simp
      | some p =>
          obtain ⟨hltp, pn, hpn, hleaf, hmem⟩ := hB.parent_wf cur n p hn hp
          have hplt : p < t.nodes.length := (List.getElem?_eq_some.mp hpn).1
          obtain ⟨pos, hpos⟩ := findPos_isSome cur pn.children 0 hmem
          obtain ⟨_, hposlt, hposget⟩ := findPos_spec cur pn.children 0 pos hpos
          simp only [Nat.sub_zero] at hposlt hposget
          obtain ⟨S', d', hgen', hver'⟩ :=
            ih p pn hpn (by omega) f (by omega) li (path + 1)
              (sibs ++ levelSibs t.nodes pn.children 0 pos)
          refine ⟨levelSibs t.nodes pn.children 0 pos ++ S', d' + 1, ?_, ?_⟩
          · rw [genGo_step hn hp hpn hpos, hgen']
            rw [List.append_assoc]
            have : path + 1 + d' = path + (d' + 1) := by omega
            rw [this]
          · intro rest
            rw [List.append_assoc]
            rw [verifyGo_step hn hp hpn hpos]
            have hlvllen : (levelSibs t.nodes pn.children 0 pos).length + 1 =
                pn.children.length :=
              levelSibs_length t.nodes pn.children 0 pos (by omega) (by omega)
            have hfuelfill : pn.children.length - 1 =
                (levelSibs t.nodes pn.children 0 pos).length := by omega
            rw [hfuelfill]
            rw [fillSiblings_append pos (levelSibs t.nodes pn.children 0 pos) _ _
              (fun sh hsh => by
                obtain ⟨a, b, c⟩ := levelSibs_bounds t.nodes pn.children 0 pos sh hsh
                refine ⟨c, ?_⟩
                rw [List.length_set, List.length_replicate]
                omega)]
            have hcurHash : n.hash = childHash t.nodes cur := (childHash_of_get hn).symm
            rw [hcurHash, filled_slots_eq hposget]
            dsimp only
            rw [allSome_map_some]
            dsimp only
            rw [← (hB.internal_wf p pn hpn hleaf).1]
            exact hver' rest



/-- On a well-formed built tree, `generateProofInternal` succeeds from
any node and the verifier accepts the generated proof against that node's
hash. -/
theorem proof_roundtrip {t : Tree} {r : Nat} (hB : BInv t.nodes [r]) {cur : Nat}
    {n : InternalNode} (hn : t.nodes[cur]? = some n) :
    ∃ proof : VerificationProof, generateProofInternal t cur = .ok proof ∧
      proof.leafIndex = cur ∧
      verifyProofInternal t proof n.hash r = some true := by
  have hcur : cur < t.nodes.length := (List.getElem?_eq_some.mp hn).1
  obtain ⟨S, d, hgen, hver⟩ := walk_correct hB t.nodes.length cur n hn (by omega)
    (t.nodes.length + 1) (by omega) cur 0 []
  refine ⟨⟨cur, S, d⟩, ?_, rfl, ?_⟩
  · show genGo t cur (t.nodes.length + 1) cur [] 0 = _
    rw [hgen]
    simp
  · show verifyGo t (childHash t.nodes r) d cur n.hash S = some true
    have h1 := hver []
    rw [List.append_nil] at h1
    rw [h1]
    simp [verifyGo]

/-- Behaviour of `verify` on a freshly built tree: the original content at
an in-range index verifies with no error, and any content with a
different digest is rejected with no error. -/
theorem verify_built {t : Tree} {blocks : List (List Nat)}
    (hc : CacheWF t.hashCache) (hne : blocks ≠ [])
    {i : Nat} {d : List Nat} (hd : blocks[i]? = some d) :
    verify (build t blocks).1 i d = (true, none) ∧
    ∀ d' : List Nat, computeHash d' ≠ computeHash d →
      verify (build t blocks).1 i d' = (false, none) := by
  obtain ⟨-, hcount, -, -, -, hleaf, -, hWF⟩ := build_wf hc hne
  obtain ⟨n, hn, hhash, -, -⟩ := hleaf i d hd
  obtain ⟨r, hroot, hB⟩ := hWF
  have hi : i < blocks.length := (List.getElem?_eq_some.mp hd).1
  have hch : childHash ((build t blocks).1).nodes i = computeHash d := by
    rw [childHash_of_get hn, hhash]
  have hidx : ¬ ¬ i < ((build t blocks).1).leafCount := by
    rw [hcount]
    omega
  constructor
  · obtain ⟨proof, hgen, -, hver⟩ := proof_roundtrip hB hn
    unfold verify
    rw [if_neg hidx, hroot]
    dsimp only
    rw [if_neg (by rw [hch]; exact not_not_intro rfl), hgen]
    dsimp only
    rw [← hhash, hver]
  · intro d' hd'
    unfold verify
    rw [if_neg hidx, hroot]
    dsimp only
    rw [if_pos (by rw [hch]; exact fun h => hd' h.symm)]



-- ---------------------- frame lemmas for update paths ----------------------

/-- The structural fields of a node that update operations never touch. -/
def nodeShape (n : InternalNode) : List Nat × Bool × Option Nat :=
  (n.children, n.isLeaf, n.parent)

/-- The structural content of a tree that update operations never touch:
every node's children/leaf-flag/parent (and hence the node count and each
node's position), the root id and the leaf count. -/
def treeShape (t : Tree) : List (List Nat × Bool × Option Nat) × Option Nat × Nat :=
  (t.nodes.map nodeShape, t.rootID, t.leafCount)

theorem set_same {l : List α} {i : Nat} {a : α} (h : l[i]? = some a) : l.set i a = l := by
  apply List.ext_getElem?
  intro j
  rw [List.getElem?_set]
  by_cases hij : i = j
  · subst hij
    rw [if_pos rfl, if_pos (List.getElem?_eq_some.mp h).1, h]
  · rw [if_neg hij]

theorem modifyNode_shape {nodes : List InternalNode} {i : Nat}
    {f : InternalNode → InternalNode} (hf : ∀ n, nodeShape (f n) = nodeShape n) :
    (modifyNode nodes i f).map nodeShape = nodes.map nodeShape := by
  unfold modifyNode
  cases h : nodes[i]? with
  | none => rfl
  | some n =>
      rw [List.map_set, hf n]
      apply set_same
      rw [List.getElem?_map, h]
      rfl

theorem modifyNode_hash_shape (nodes : List InternalNode) (i : Nat)
    (g : InternalNode → HashV) :
    (modifyNode nodes i (fun n => { n with hash := g n })).map nodeShape =
      nodes.map nodeShape :=
  modifyNode_shape (fun m => rfl)

theorem recomputeNodeHash_shape (t : Tree) (id : Nat) :
    treeShape (recomputeNodeHash t id).1 = treeShape t ∧
    (recomputeNodeHash t id).1.leafData = t.leafData := by
  unfold recomputeNodeHash
  by_cases hb : t.nodes.length ≤ id
  · rw [if_pos hb]
    exact ⟨rfl, rfl⟩
  · rw [if_neg hb]
    cases hn : t.nodes[id]? with
    | none => exact ⟨rfl, rfl⟩
    | some n =>
        dsimp only
        by_cases hl : n.isLeaf
        · rw [if_pos hl]
          exact ⟨rfl, rfl⟩
        · rw [if_neg hl]
          refine ⟨?_, rfl⟩
          show ((modifyNode t.nodes id _).map nodeShape, t.rootID, t.leafCount) = _
          rw [modifyNode_hash_shape]
          rfl

theorem recomputeAll_shape :
    ∀ (ids : List Nat) (t : Tree),
      treeShape (recomputeAll t ids).1 = treeShape t := by
  intro ids
  induction ids with
  | nil => exact fun t => rfl
  | cons id rest ih =>
      intro t
      obtain ⟨s1, -⟩ := recomputeNodeHash_shape t id
      have step : recomputeAll t (id :: rest) =
          match (recomputeNodeHash t id).2 with
          | none => recomputeAll (recomputeNodeHash t id).1 rest
          | some _ => recomputeNodeHash t id := rfl
      rw [step]
      cases hr : (recomputeNodeHash t id).2 with
      | none => exact (ih (recomputeNodeHash t id).1).trans s1
      | some e => exact s1

theorem update_shape (t : Tree) (leafIndex : Nat) (newData : List Nat) :
    treeShape (update t leafIndex newData).1 = treeShape t := by
  unfold update
  by_cases hb : ¬ leafIndex < t.leafCount
  · rw [if_pos hb]
  · rw [if_neg hb]
    unfold updateAncestors
    refine (recomputeAll_shape _ _).trans ?_
    show ((modifyNode t.nodes leafIndex _).map nodeShape, t.rootID, t.leafCount) = _
    rw [modifyNode_hash_shape]
    rfl

theorem applyLeafUpdates_shape :
    ∀ (updates : List (Nat × List Nat)) (t : Tree),
      treeShape (applyLeafUpdates t updates) = treeShape t := by
  intro updates
  induction updates with
  | nil => exact fun t => rfl
  | cons u rest ih =>
      intro t
      obtain ⟨idx, d⟩ := u
      refine (ih _).trans ?_
      show ((modifyNode t.nodes idx _).map nodeShape, t.rootID, t.leafCount) = _
      rw [modifyNode_hash_shape]
      rfl

theorem sweep_shape :
    ∀ (fuel : Nat) (t : Tree) (queue seen : List Nat),
      treeShape (sweep fuel t queue seen).1 = treeShape t := by
  intro fuel
  induction fuel with
  | zero => exact fun t queue seen => rfl
  | succ fuel ih =>
      intro t queue seen
      cases queue with
      | nil => rfl
      | cons id queue' =>
          obtain ⟨s1, -⟩ := recomputeNodeHash_shape t id
          show treeShape (if id ∈ seen then sweep fuel t queue' seen else _).1 = _
          by_cases hs : id ∈ seen
          · rw [if_pos hs]
            exact ih t queue' seen
          · rw [if_neg hs]
            cases hr : (recomputeNodeHash t id).2 with
            | some e => exact s1
            | none =>
                cases hn : (recomputeNodeHash t id).1.nodes[id]? with
                | none => exact s1
                | some n =>
                    dsimp only
                    cases hp : n.parent with
                    | none => exact (ih _ _ _).trans s1
                    | some p => exact (ih _ _ _).trans s1

theorem batchUpdate_shape (t : Tree) (updates : List (Nat × List Nat)) :
    treeShape (batchUpdate t updates).1 = treeShape t := by
  unfold batchUpdate
  cases hf : updates.find? (fun u => decide (t.leafCount ≤ u.1)) with
  | some u => rfl
  | none =>
      dsimp only
      exact (sweep_shape _ _ _ _).trans (applyLeafUpdates_shape updates t)



-- ---------------------- serialization lemmas ----------------------

theorem deserialize_serialize (t : Tree) (cfg : Config) :
    (deserialize (serialize t) cfg).nodes = t.nodes ∧
    (deserialize (serialize t) cfg).leafData = t.leafData ∧
    (deserialize (serialize t) cfg).rootID = t.rootID ∧
    (deserialize (serialize t) cfg).leafCount = t.leafCount ∧
    getRootHash (deserialize (serialize t) cfg) = getRootHash t := by
  have hn : (deserialize (serialize t) cfg).nodes = t.nodes := by
    show (t.nodes.enum.map
        (fun p => (⟨p.1, p.2.hash, p.2.children, p.2.isLeaf, p.2.parent⟩ :
          SerializableNode))).map
        (fun sn => (⟨sn.hash, sn.children, sn.isLeaf, sn.parent⟩ : InternalNode)) = t.nodes
    rw [List.map_map]
    have hfun : ((fun sn => (⟨sn.hash, sn.children, sn.isLeaf, sn.parent⟩ : InternalNode)) ∘
        (fun p => (⟨p.1, p.2.hash, p.2.children, p.2.isLeaf, p.2.parent⟩ :
          SerializableNode))) = (Prod.snd : Nat × InternalNode → InternalNode) := by
      funext p
      rfl
    rw [hfun, List.enum_map_snd]
  refine ⟨hn, rfl, rfl, rfl, ?_⟩
  unfold getRootHash
  have hr : (deserialize (serialize t) cfg).rootID = t.rootID := rfl
  rw [hr, hn]

-- ---------------------- cache persistence across builds ----------------------

theorem build_cache_mono (t : Tree) (blocks : List (List Nat)) :
    ∀ kv ∈ t.hashCache, kv ∈ ((build t blocks).1).hashCache := by
  intro kv hkv
  cases blocks with
  | nil => exact hkv
  | cons d rest =>
      show kv ∈ (buildLeaves t.cfg t.hashCache (d :: rest)).2.2
      exact buildLeaves_cache_mono (d :: rest) t.hashCache kv hkv

-- ---------------------- reads before any build ----------------------

theorem mkTree_reads (cfg : Config) (i : Nat) (d : List Nat) (proof : VerificationProof) :
    verify (mkTree cfg) i d = (false, some (.invalidIndex i)) ∧
    generateProof (mkTree cfg) i = .error (.invalidIndex i) ∧
    verifyProof (mkTree cfg) proof d = some (false, some .uninitialized) := by
  refine ⟨?_, ?_, rfl⟩
  · unfold verify
    rw [if_pos (show ¬ i < (mkTree cfg).leafCount from Nat.not_lt_zero i)]
  · unfold generateProof
    rw [if_neg (show ¬ i < (mkTree cfg).leafCount from Nat.not_lt_zero i)]

-- ---------------------- batch validation ----------------------

theorem batchUpdate_invalid {t : Tree} {updates : List (Nat × List Nat)}
    (h : ∃ u ∈ updates, t.leafCount ≤ u.1) :
    ∃ j : Nat, t.leafCount ≤ j ∧
      batchUpdate t updates = (t, some (TMTErr.invalidIndex j)) := by
  have hfind : (updates.find? (fun u => decide (t.leafCount ≤ u.1))).isSome := by
    rw [List.find?_isSome]
    obtain ⟨u, hu, hle⟩ := h
    exact ⟨u, hu, by simpa using hle⟩
  obtain ⟨u, hu⟩ := Option.isSome_iff_exists.mp hfind
  have hle : t.leafCount ≤ u.1 := by
    have := List.find?_some hu
    simpa using this
  refine ⟨u.1, hle, ?_⟩
  unfold batchUpdate
  rw [hu]



theorem treeShape_length {t₁ t₂ : Tree} (h : treeShape t₁ = treeShape t₂) :
    t₁.nodes.length = t₂.nodes.length := by
  have h1 : t₁.nodes.map nodeShape = t₂.nodes.map nodeShape := congrArg Prod.fst h
  have h2 := congrArg List.length h1
  simpa using h2

-- ===================== Concrete example trees =====================

/-- A fresh instance with the default configuration. -/
def exTree0 : Tree := mkTree defaultConfig

def exBlocks3 : List (List Nat) := [[1], [2], [3]]

/-- A built 3-leaf tree (height 2: three leaves under the root). -/
def exTree3 : Tree := (build exTree0 exBlocks3).1

def exBlocks4 : List (List Nat) := [[1], [2], [3], [4]]

/-- A built 4-block tree: 6 leaves after padding, two internal nodes,
one root (height 3). -/
def exTree4 : Tree := (build exTree0 exBlocks4).1

def exBlocks9 : List (List Nat) :=
  [[1], [2], [3], [4], [5], [6], [7], [8], [9]]

/-- A built 9-leaf tree: three internal nodes over the leaves, one root
(height 3), with updates to leaves 0 and 3 touching different subtrees. -/
def exTree9 : Tree := (build exTree0 exBlocks9).1

-- ===================== Claims =====================

/-- Claim C1: the claim states that after `update(i, d)` the root hash
equals the root hash of a fresh build over the updated contents, the
ancestors being recomputed from the leaf's immediate parent up to the
root.  The code recomputes the collected ancestor array from its last
element (the root) down to the first, so on this height-3 tree the root
is recombined from the stale hash of the leaf's parent: the root hash is
bit-for-bit the pre-update root hash and differs from the fresh build's
root.  This theorem evaluates the code at the failing input. -/
theorem C1_update_root_stale :
    (update exTree4 0 [9]).2 = none ∧
    getRootHash (update exTree4 0 [9]).1 = getRootHash exTree4 ∧
    getRootHash (update exTree4 0 [9]).1 ≠
      getRootHash (build exTree0 [[9], [2], [3], [4]]).1 := by
  decide

/-- Claim C2: the claim states that `batchUpdate` leaves the tree
identical, hash for hash, to a fresh build over the updated contents, and
that the final root hash is independent of the mapping's iteration order.
On this 9-leaf tree, updating leaves 0 and 3 (different subtrees) makes
the sweep recompute the root before the second subtree's parent, so the
root combines a stale subtree hash: it differs from the fresh build's
root, and the two iteration orders give different roots.  Leaf contents
do match the fresh build.  This theorem evaluates the code at the failing
input. -/
theorem C2_batchUpdate_stale_root :
    (batchUpdate exTree9 [(0, [90]), (3, [91])]).2 = none ∧
    (batchUpdate exTree9 [(0, [90]), (3, [91])]).1.leafData =
      (build exTree0 [[90], [2], [3], [91], [5], [6], [7], [8], [9]]).1.leafData ∧
    getRootHash (batchUpdate exTree9 [(0, [90]), (3, [91])]).1 ≠
      getRootHash (build exTree0 [[90], [2], [3], [91], [5], [6], [7], [8], [9]]).1 ∧
    getRootHash (batchUpdate exTree9 [(0, [90]), (3, [91])]).1 ≠
      getRootHash (batchUpdate exTree9 [(3, [91]), (0, [90])]).1 := by
  decide

/-- Claim C3: the claim states that `verifyProof` reports every
structurally malformed proof as not verified (returns `false`) and never
crashes with an uncaught exception.  The code never validates
`proof.leafIndex`, so a proof whose leaf index is outside the node array
makes it read a property of `undefined` and throw an uncaught
`TypeError`, and two sibling entries claiming the same position leave a
hole in the reconstructed child-hash array, making `combineHashes` throw.
Both crashes are modelled by the `none` result this theorem evaluates. -/
theorem C3_verifyProof_crash :
    verifyProof exTree3 ⟨99, [⟨1, computeHash [2]⟩, ⟨2, computeHash [3]⟩], 1⟩ [1] =
      none ∧
    verifyProof exTree3 ⟨0, [⟨2, computeHash [3]⟩, ⟨2, computeHash [3]⟩], 1⟩ [1] =
      none := by
  decide

/-- Claim C4: for every non-empty block sequence, after build, verifying
every original index against its original content returns true with no
error, and verifying an original index against any content whose digest
differs from the original returns false with no error. -/
theorem C4_verify_correct (t : Tree) (blocks : List (List Nat))
    (hc : CacheWF t.hashCache) (hne : blocks ≠ [])
    (i : Nat) (hi : i < blocks.length) :
    verify (build t blocks).1 i blocks[i] = (true, none) ∧
    ∀ d' : List Nat, computeHash d' ≠ computeHash blocks[i] →
      verify (build t blocks).1 i d' = (false, none) :=
  verify_built hc hne (List.getElem?_eq_getElem hi)

/-- Witness for C4 at a concrete input: a fresh instance, three blocks,
index 0, wrong content `[7]`. -/
theorem C4_verify_correct_witness :
    CacheWF (mkTree defaultConfig).hashCache ∧
    ([[1], [2], [3]] : List (List Nat)) ≠ [] ∧
    0 < ([[1], [2], [3]] : List (List Nat)).length ∧
    computeHash [7] ≠ computeHash [1] ∧
    verify (build (mkTree defaultConfig) [[1], [2], [3]]).1 0 [1] = (true, none) ∧
    verify (build (mkTree defaultConfig) [[1], [2], [3]]).1 0 [7] = (false, none) := by
  have hc : CacheWF (mkTree defaultConfig).hashCache :=
    fun kv h => absurd h (List.not_mem_nil kv)
  have h := C4_verify_correct (mkTree defaultConfig) [[1], [2], [3]] hc
    (by decide) 0 (by decide)
  exact ⟨hc, by decide, by decide, by decide, h.1, h.2 [7] (by decide)⟩

/-- Claim C5: `serialize` followed by `deserialize` yields a tree whose
node and leaf-data arrays, root id and `leafCount` equal the original's,
and whose root hash is identical to the original tree's root hash. -/
theorem C5_serialize_roundtrip (t : Tree) (cfg : Config) :
    (deserialize (serialize t) cfg).nodes = t.nodes ∧
    (deserialize (serialize t) cfg).leafData = t.leafData ∧
    (deserialize (serialize t) cfg).rootID = t.rootID ∧
    (deserialize (serialize t) cfg).leafCount = t.leafCount ∧
    getRootHash (deserialize (serialize t) cfg) = getRootHash t :=
  deserialize_serialize t cfg

/-- Claim C6 counterexample: the claim states that the hash cache is
scoped to a single build call and holds no carried-over entries at the
start of a build.  In the code `build` resets nodes, leaf data, root and
leaf count but never clears `this.hashCache`, so after building `[[1]]`
the cache is non-empty, and a second build over `[[2]]` starts from — and
extends — exactly that cache instead of an empty one. -/
theorem C6_counterexample :
    ((build (mkTree defaultConfig) [[1]]).1).hashCache ≠ [] ∧
    ((build (build (mkTree defaultConfig) [[1]]).1 [[2]]).1).hashCache =
      ((build (mkTree defaultConfig) [[1]]).1).hashCache ++
        [([2], computeHash [2])] := by
  decide

/-- Claim C6 (amended): the cache is scoped to the tree instance, not to
a single build call: `build` never clears it, and every cache entry
present before a build call is still present after it. -/
theorem C6_cache_instance_scoped (t : Tree) (blocks : List (List Nat)) :
    ∀ kv ∈ t.hashCache, kv ∈ ((build t blocks).1).hashCache :=
  build_cache_mono t blocks

/-- Witness for the amended C6: the entry cached while building `[[1]]`
survives the subsequent build over `[[2]]` on the same instance. -/
theorem C6_cache_instance_scoped_witness :
    ([1], computeHash [1]) ∈ ((build (mkTree defaultConfig) [[1]]).1).hashCache ∧
    ([1], computeHash [1]) ∈
      ((build (build (mkTree defaultConfig) [[1]]).1 [[2]]).1).hashCache := by
  refine ⟨by decide, ?_⟩
  exact C6_cache_instance_scoped (build (mkTree defaultConfig) [[1]]).1 [[2]]
    ([1], computeHash [1]) (by decide)

/-- Claim C7: for every tree and every update mapping containing at least
one index outside `[0, leafCount)` (with natural-number indices, an index
at or above `leafCount`; the code's negative-index check is vacuous
here), `batchUpdate` fails with `InvalidIndexError` and the tree state is
returned unchanged — the validation pass precedes every mutation. -/
theorem C7_batchUpdate_invalid_no_mutation (t : Tree)
    (updates : List (Nat × List Nat))
    (h : ∃ u ∈ updates, t.leafCount ≤ u.1) :
    ∃ j : Nat, t.leafCount ≤ j ∧
      batchUpdate t updates = (t, some (TMTErr.invalidIndex j)) :=
  batchUpdate_invalid h

/-- Witness for C7: on the built 3-leaf tree, a batch containing index 5
fails with `InvalidIndexError` and returns the tree unchanged. -/
theorem C7_batchUpdate_invalid_no_mutation_witness :
    (∃ u ∈ ([(0, [7]), (5, [8])] : List (Nat × List Nat)), exTree3.leafCount ≤ u.1) ∧
    ∃ j : Nat, exTree3.leafCount ≤ j ∧
      batchUpdate exTree3 [(0, [7]), (5, [8])] =
        (exTree3, some (TMTErr.invalidIndex j)) := by
  have hx : ∃ u ∈ ([(0, [7]), (5, [8])] : List (Nat × List Nat)),
      exTree3.leafCount ≤ u.1 := ⟨(5, [8]), by decide, by decide⟩
  exact ⟨hx, C7_batchUpdate_invalid_no_mutation exTree3 _ hx⟩

/-- Claim C8 counterexample: the claim states that `verify` attempted
before a successful build fails with `UninitializedError`.  On a fresh
instance `leafCount` is 0, so the bounds check fires first and `verify`
returns `InvalidIndexError`, not `UninitializedError`. -/
theorem C8_counterexample :
    verify (mkTree defaultConfig) 0 [] =
      (false, some (TMTErr.invalidIndex 0)) ∧
    some (TMTErr.invalidIndex 0) ≠ some TMTErr.uninitialized := by
  decide

/-- Claim C8 (amended): before a successful build, every read requiring a
built tree fails — `verifyProof` with `UninitializedError`, while
`verify` and `generateProof` fail with `InvalidIndexError`, because
`leafCount` is 0 and their bounds check precedes (or replaces) any
initialization check. -/
theorem C8_uninitialized_reads (cfg : Config) (i : Nat) (d : List Nat)
    (proof : VerificationProof) :
    verify (mkTree cfg) i d = (false, some (TMTErr.invalidIndex i)) ∧
    generateProof (mkTree cfg) i = .error (TMTErr.invalidIndex i) ∧
    verifyProof (mkTree cfg) proof d = some (false, some TMTErr.uninitialized) :=
  mkTree_reads cfg i d proof

/-- Claim C9: after every successful build over n blocks, the leaf
layer's length including padding is a multiple of 3, `leafCount` equals n
(never counting padding), and each padding leaf holds the empty byte
sequence and carries the digest of the empty byte sequence. -/
theorem C9_padding (t : Tree) (blocks : List (List Nat))
    (hc : CacheWF t.hashCache) (hne : blocks ≠ []) :
    ((build t blocks).1).leafCount = blocks.length ∧
    ((build t blocks).1).leafData.length % 3 = 0 ∧
    ((build t blocks).1).leafData.length =
      blocks.length + (3 - blocks.length % 3) % 3 ∧
    ∀ j : Nat, blocks.length ≤ j → j < ((build t blocks).1).leafData.length →
      ((build t blocks).1).leafData[j]? = some [] ∧
      ∃ n : InternalNode, ((build t blocks).1).nodes[j]? = some n ∧
        n.hash = computeHash [] ∧ n.isLeaf = true := by
  obtain ⟨-, hcount, -, hld, -, -, hpad, -⟩ := build_wf hc hne
  have hlen : ((build t blocks).1).leafData.length =
      blocks.length + (3 - blocks.length % 3) % 3 := by
    rw [hld]
    simp
  refine ⟨hcount, by rw [hlen]; omega, hlen, ?_⟩
  intro j h1 h2
  rw [hlen] at h2
  constructor
  · rw [hld, List.getElem?_append_right (by exact h1), List.getElem?_replicate,
      if_pos (by omega)]
  · obtain ⟨n, hn, e1, e2, e3⟩ := hpad j h1 (by omega)
    exact ⟨n, hn, e1, e3⟩

/-- Witness for C9: building a single block pads the leaf layer to three
leaves; `leafCount` stays 1 and the padding slot holds the empty
sequence. -/
theorem C9_padding_witness :
    CacheWF (mkTree defaultConfig).hashCache ∧
    ([[1]] : List (List Nat)) ≠ [] ∧
    ((build (mkTree defaultConfig) [[1]]).1).leafCount = 1 ∧
    ((build (mkTree defaultConfig) [[1]]).1).leafData.length % 3 = 0 ∧
    ((build (mkTree defaultConfig) [[1]]).1).leafData[1]? = some [] := by
  have hc : CacheWF (mkTree defaultConfig).hashCache :=
    fun kv h => absurd h (List.not_mem_nil kv)
  have h := C9_padding (mkTree defaultConfig) [[1]] hc (by decide)
  exact ⟨hc, by decide, h.1, h.2.1, (h.2.2.2 1 (by decide) (by decide)).1⟩

/-- Claim C10: successful `update` and `batchUpdate` calls mutate only
hash and leaf-data fields: the node array's length, every node's position
(id), children list, leaf flag and parent back-reference, the root id and
the leaf count are all unchanged. -/
theorem C10_update_frame (t : Tree) (i : Nat) (d : List Nat)
    (updates : List (Nat × List Nat))
    (h1 : (update t i d).2 = none) (h2 : (batchUpdate t updates).2 = none) :
    treeShape (update t i d).1 = treeShape t ∧
    ((update t i d).1).nodes.length = t.nodes.length ∧
    treeShape (batchUpdate t updates).1 = treeShape t ∧
    ((batchUpdate t updates).1).nodes.length = t.nodes.length := by
  have a := update_shape t i d
  have b := batchUpdate_shape t updates
  exact ⟨a, treeShape_length a, b, treeShape_length b⟩

/-- Witness for C10: a successful single update and a successful batch
update on the built 4-block tree preserve the tree's structure. -/
theorem C10_update_frame_witness :
    (update exTree4 0 [9]).2 = none ∧
    (batchUpdate exTree4 [(0, [9])]).2 = none ∧
    (treeShape (update exTree4 0 [9]).1 = treeShape exTree4 ∧
     ((update exTree4 0 [9]).1).nodes.length = exTree4.nodes.length ∧
     treeShape (batchUpdate exTree4 [(0, [9])]).1 = treeShape exTree4 ∧
     ((batchUpdate exTree4 [(0, [9])]).1).nodes.length = exTree4.nodes.length) := by
  exact ⟨by decide, by decide,
    C10_update_frame exTree4 0 [9] [(0, [9])] (by decide) (by decide)⟩


end TMT
